import Mathlib

/-!
# GraphicsEngine: Vector3, Shader parameter upload, render loop

A shallow embedding of `sources/Vector3.cpp`, `sources/Shader.cpp` and the
loop of `sources/main.cpp`.

* The C++ type `float` is a type parameter `F` of the definitions.  Where rounding, overflow
  or underflow decide a statement (`normalize`, the drain loop) it is instantiated with
  `Binary32`, a model of IEEE 754 binary32 with round-to-nearest-even; call order and
  algebraic identities are stated for the arithmetic of `F` itself.
* Calls into the graphics driver, writes to `std::cerr` and calls on the
  collaborators of `main` are recorded, in program order, in a trace.
-/

namespace GraphicsEngine

/-! ## Vector3 (sources/Vector3.cpp) -/

/-- Modelled from the spec: the class `Matrix` (Matrix.hpp is not among the
sources): a 4×4 matrix stored row-major as 16 contiguous floats; `getMatrix`
hands out that flat buffer. -/
structure Matrix (F : Type) where
  getMatrix : Fin 16 → F

/-- The data members of `Vector3`. -/
structure Vector3 (F : Type) where
  x : F
  y : F
  z : F

namespace Vector3

variable {F : Type}

/-- The constructor `Vector3::Vector3(void)`, delegating to `Vector3(0.f, 0.f, 0.f)`. -/
def init [Zero F] : Vector3 F := ⟨0, 0, 0⟩

/-- The method `Vector3::length`: `std::sqrt(x * x + y * y + z * z)`. -/
def length [Add F] [Mul F] (sqrt : F → F) (v : Vector3 F) : F :=
  sqrt (v.x * v.x + v.y * v.y + v.z * v.z)

/-- The method `Vector3::normalize`: the length is taken once, then `x /= len; y /= len; z /= len`.
The value is the vector after the in-place update (the method returns `*this`). -/
def normalize [Add F] [Mul F] [Div F] (sqrt : F → F) (v : Vector3 F) : Vector3 F :=
  let len := length sqrt v
  let v := { v with x := v.x / len }
  let v := { v with y := v.y / len }
  let v := { v with z := v.z / len }
  v

/-- The operator `Vector3::operator*(float) const`. -/
def mulScalar [Mul F] (v : Vector3 F) (factor : F) : Vector3 F :=
  ⟨v.x * factor, v.y * factor, v.z * factor⟩

/-- The operator `Vector3::operator*(Matrix const &) const`: `res` starts as the zero vector and
receives nine `+=` updates; `*this` is not written (the method is `const`). -/
def mulMatrix [Zero F] [Add F] [Mul F] (v : Vector3 F) (matrix : Matrix F) : Vector3 F :=
  let res : Vector3 F := init
  let res := { res with x := res.x + matrix.getMatrix (0 * 4 + 0) * v.x }
  let res := { res with x := res.x + matrix.getMatrix (0 * 4 + 1) * v.y }
  let res := { res with x := res.x + matrix.getMatrix (0 * 4 + 2) * v.z }
  let res := { res with y := res.y + matrix.getMatrix (1 * 4 + 0) * v.x }
  let res := { res with y := res.y + matrix.getMatrix (1 * 4 + 1) * v.y }
  let res := { res with y := res.y + matrix.getMatrix (1 * 4 + 2) * v.z }
  let res := { res with z := res.z + matrix.getMatrix (2 * 4 + 0) * v.x }
  let res := { res with z := res.z + matrix.getMatrix (2 * 4 + 1) * v.y }
  let res := { res with z := res.z + matrix.getMatrix (2 * 4 + 2) * v.z }
  res

end Vector3

/-- The buffer positions of row 3 and of column 3 of a row-major 4×4 matrix. -/
def lastRowOrColumn (i : Fin 16) : Bool :=
  i = 3 || i = 7 || i = 11 || i = 12 || i = 13 || i = 14 || i = 15

/-- The matrix `M` with every entry of row 3 and column 3 replaced by the entry of `other`. -/
def Matrix.replaceLastRowAndColumn {F : Type} (M other : Matrix F) : Matrix F :=
  ⟨fun i => if lastRowOrColumn i then other.getMatrix i else M.getMatrix i⟩

/-! ## Binary32 arithmetic (the C++ type `float`) -/

/-- A value of the C++ type `float` in IEEE 754 binary32: a finite number, an infinity or a
NaN.  The finite values are the rationals `n * 2^e` with `|n| < 2^24` and `-149 ≤ e ≤ 104`;
every operation below rounds its exact result to one of them.  The sign of a zero is not
kept. -/
inductive Binary32 where
  | finite (q : ℚ)
  | inf (negative : Bool)
  | nan
  deriving DecidableEq

/-- The integer nearest to `x`, a tie going to the even one. -/
def roundHalfEven (x : ℚ) : ℤ :=
  if x - ⌊x⌋ < 1 / 2 then ⌊x⌋
  else if 1 / 2 < x - ⌊x⌋ then ⌊x⌋ + 1
  else if ⌊x⌋ % 2 = 0 then ⌊x⌋ else ⌊x⌋ + 1

/-- The exponent of the unit in the last place of `q`: 23 below the binade of `q`, and `-149`
throughout the subnormal range. -/
def ulpExponent (q : ℚ) : ℤ := if q = 0 then -149 else max (Int.log 2 |q|) (-126) - 23

/-- Rounding to nearest, ties to even: the nearest multiple of the unit in the last place,
and an infinity when that multiple is `2^128` or more in magnitude. -/
def Binary32.round (q : ℚ) : Binary32 :=
  if 2 ^ 128 ≤ |(roundHalfEven (q / 2 ^ ulpExponent q) : ℚ) * 2 ^ ulpExponent q| then
    .inf (decide (q < 0))
  else .finite ((roundHalfEven (q / 2 ^ ulpExponent q) : ℚ) * 2 ^ ulpExponent q)

/-- The largest finite binary32 value. -/
def maxFinite : ℚ := 2 ^ 128 - 2 ^ 104

/-- The multiples of the smallest positive binary32 value, `2^-149`; every finite binary32
value is one. -/
def OnGrid (q : ℚ) : Prop := ∃ n : ℤ, q = n * 2 ^ (-149 : ℤ)

/-- The binary32 value nearest to the square root of `q > 0`: with `4^e` the square of the unit
in the last place of the root, the integer nearest to `sqrt (q / 4^e)`, times `2^e`. -/
def sqrtRound (q : ℚ) : ℚ :=
  let e : ℤ := Int.log 2 q / 2 - 23
  let t : ℚ := q / 4 ^ e
  let k : ℕ := Nat.sqrt ⌊t⌋₊
  let n : ℕ :=
    if t < (k : ℚ) ^ 2 + k + 1 / 4 then k
    else if (k : ℚ) ^ 2 + k + 1 / 4 < t then k + 1
    else if k % 2 = 0 then k else k + 1
  n * 2 ^ e

namespace Binary32

/-- Negation: the sign is flipped, nothing is rounded. -/
def neg : Binary32 → Binary32
  | finite a => finite (-a)
  | inf s => inf (!s)
  | nan => nan

/-- Addition, rounded to nearest. -/
def add : Binary32 → Binary32 → Binary32
  | finite a, finite b => round (a + b)
  | finite _, inf s => inf s
  | inf s, finite _ => inf s
  | inf s, inf t => if s = t then inf s else nan
  | _, _ => nan

/-- Subtraction, rounded to nearest. -/
def sub : Binary32 → Binary32 → Binary32
  | finite a, finite b => round (a - b)
  | finite _, inf s => inf (!s)
  | inf s, finite _ => inf s
  | inf s, inf t => if s = t then nan else inf s
  | _, _ => nan

/-- Multiplication, rounded to nearest. -/
def mul : Binary32 → Binary32 → Binary32
  | finite a, finite b => round (a * b)
  | finite a, inf s => if a = 0 then nan else inf (xor (decide (a < 0)) s)
  | inf s, finite b => if b = 0 then nan else inf (xor s (decide (b < 0)))
  | inf s, inf t => inf (xor s t)
  | _, _ => nan

/-- Division, rounded to nearest.  A zero divisor is taken as `+0`. -/
def div : Binary32 → Binary32 → Binary32
  | finite a, finite b =>
    if b = 0 then (if a = 0 then nan else inf (decide (a < 0))) else round (a / b)
  | finite _, inf _ => finite 0
  | inf s, finite b => inf (xor s (decide (b < 0)))
  | _, _ => nan

/-- The comparison `a < b`; it is false as soon as one side is not a number. -/
def blt : Binary32 → Binary32 → Bool
  | finite a, finite b => decide (a < b)
  | finite _, inf s => !s
  | inf s, finite _ => s
  | inf s, inf t => s && !t
  | _, _ => false


/-- The square root, correctly rounded. -/
def sqrt : Binary32 → Binary32
  | finite q => if q < 0 then nan else if q = 0 then finite 0 else finite (sqrtRound q)
  | inf s => if s then nan else inf false
  | nan => nan

instance : Zero Binary32 := ⟨finite 0⟩
instance : Neg Binary32 := ⟨neg⟩
instance : Add Binary32 := ⟨add⟩
instance : Sub Binary32 := ⟨sub⟩
instance : Mul Binary32 := ⟨mul⟩
instance : Div Binary32 := ⟨div⟩
instance : LT Binary32 := ⟨fun a b => blt a b = true⟩
instance : DecidableRel (fun a b : Binary32 => a < b) :=
  fun a b => inferInstanceAs (Decidable (blt a b = true))

end Binary32


/-- The constant `frameLimit = 1.f / 300.f` of `main`, in binary32. -/
def frameLimit32 : Binary32 := Binary32.finite 1 / Binary32.finite 300

/-! ## Shader (sources/Shader.cpp) -/

/-- Modelled from the spec: the class `Vector2` (two float components; Vector2.hpp is not
among the sources). -/
structure Vector2 (F : Type) where
  x : F
  y : F

/-- Modelled from the spec: the class `Color` (four floats `r, g, b, a`; Color.hpp is not among
the sources). -/
structure Color (F : Type) where
  r : F
  g : F
  b : F
  a : F

/-- Modelled from the spec: the class `DirectionalLight` (DirectionalLight.hpp is not among the
sources), as far as `Shader` reads it: the values returned by its four getters. -/
structure DirectionalLight (F : Type) where
  getColor : Color F
  getRotatedDirection : Vector3 F
  getAmbientIntensity : F
  getDiffuseIntensity : F

/-- What the shader code does to the outside world: the driver calls it issues, with the
arguments the driver receives, and the lines it writes to `std::cerr`. -/
inductive Effect (F : Type) where
  | glUseProgram (program : Nat)
  | glGetUniformLocation (program : Nat) (name : String)
  | glUniform1ui (location : Int) (v0 : Nat)
  | glUniform1i (location : Int) (v0 : Int)
  | glUniform1f (location : Int) (v0 : F)
  | glUniform2f (location : Int) (v0 v1 : F)
  | glUniform3f (location : Int) (v0 v1 v2 : F)
  | glUniform4f (location : Int) (v0 v1 v2 v3 : F)
  | glUniformMatrix4fv (location : Int) (count : Nat) (transpose : Bool) (value : Fin 16 → F)
  | cerr (line : String)

/-- Modelled from the spec: the graphics driver as far as its answers are read back: the
location `glGetUniformLocation(program, name)` reports for a uniform of the linked program,
`-1` when the program has no such uniform. -/
structure Driver where
  glGetUniformLocation : Nat → String → Int

/-- The conversion of an unsigned integer to the 32-bit unsigned type `GLuint` of the driver
interface: the value modulo `2 ^ 32`. -/
def toGLuint (value : Nat) : Nat := value % 2 ^ 32

/-- Modelled from the spec: `Shader::ParamMap` (Shader.hpp is not among the sources), the
mapping from uniform name to resolved location, as a list of `std::pair`s. -/
abbrev ParamMap := List (String × Int)

/-- The lookup `m_params.find(name)`: the mapped location (`it->second`), or `none` for `end()`. -/
def ParamMap.find : ParamMap → String → Option Int
  | [], _ => none
  | (first, second) :: rest, name => if first = name then some second else ParamMap.find rest name

/-- The call `m_params.insert(pair)`: a map keeps the entry it already has for a key. -/
def ParamMap.insert (params : ParamMap) (pair : String × Int) : ParamMap :=
  match params.find pair.1 with
  | some _ => params
  | none => pair :: params

/-- The data members of `Shader`, as `Shader::operator=` lists them. -/
structure Shader where
  m_program : Nat
  m_shaders : Nat × Nat
  m_attributes : List Int
  m_params : ParamMap

/-- A shader object together with everything it has done so far, oldest effect first. -/
structure Machine (F : Type) where
  shader : Shader
  trace : List (Effect F)

/-- Record one more effect. -/
def Machine.emit {F : Type} (m : Machine F) (e : Effect F) : Machine F :=
  { m with trace := m.trace ++ [e] }

/-- The line `Shader::getParamIndex` writes to `std::cerr` for a uniform the program lacks. -/
def notFoundLine (name : String) : String :=
  "Parameter \"" ++ name ++ "\" not found in shader."

namespace Shader

variable {F : Type}

/-- The method `Shader::getParamIndex`: the returned location and the state afterwards. -/
def getParamIndex (gl : Driver) (m : Machine F) (name : String) : Int × Machine F :=
  match m.shader.m_params.find name with
  | some second => (second, m)
  | none =>
    let location := gl.glGetUniformLocation m.shader.m_program name
    let m := m.emit (.glGetUniformLocation m.shader.m_program name)
    let m := { m with shader := { m.shader with
                m_params := m.shader.m_params.insert (name, location) } }
    let m := if location = -1 then m.emit (.cerr (notFoundLine name)) else m
    (location, m)

/-- The overload `Shader::setParameter(std::string const &, std::size_t)`.  The parameter of
`glUniform1ui` is a `GLuint`, so the `std::size_t` argument is converted on the call. -/
def setParameterSizeT (gl : Driver) (m : Machine F) (name : String) (value : Nat) : Machine F :=
  if m.shader.m_program ≠ 0 then
    let m := m.emit (.glUseProgram m.shader.m_program)
    let r := getParamIndex gl m name
    if r.1 ≠ -1 then r.2.emit (.glUniform1ui r.1 (toGLuint value)) else r.2
  else m

/-- The overload `Shader::setParameter(std::string const &, int)`. -/
def setParameterInt (gl : Driver) (m : Machine F) (name : String) (value : Int) : Machine F :=
  if m.shader.m_program ≠ 0 then
    let m := m.emit (.glUseProgram m.shader.m_program)
    let r := getParamIndex gl m name
    if r.1 ≠ -1 then r.2.emit (.glUniform1i r.1 value) else r.2
  else m

/-- The overload `Shader::setParameter(std::string const &, float)`. -/
def setParameterFloat (gl : Driver) (m : Machine F) (name : String) (value : F) : Machine F :=
  if m.shader.m_program ≠ 0 then
    let m := m.emit (.glUseProgram m.shader.m_program)
    let r := getParamIndex gl m name
    if r.1 ≠ -1 then r.2.emit (.glUniform1f r.1 value) else r.2
  else m

/-- The overload `Shader::setParameter(std::string const &, Vector2 const &)`. -/
def setParameterVector2 (gl : Driver) (m : Machine F) (name : String) (vector : Vector2 F) :
    Machine F :=
  if m.shader.m_program ≠ 0 then
    let m := m.emit (.glUseProgram m.shader.m_program)
    let r := getParamIndex gl m name
    if r.1 ≠ -1 then r.2.emit (.glUniform2f r.1 vector.x vector.y) else r.2
  else m

/-- The overload `Shader::setParameter(std::string const &, Vector3 const &)`. -/
def setParameterVector3 (gl : Driver) (m : Machine F) (name : String) (vector : Vector3 F) :
    Machine F :=
  if m.shader.m_program ≠ 0 then
    let m := m.emit (.glUseProgram m.shader.m_program)
    let r := getParamIndex gl m name
    if r.1 ≠ -1 then r.2.emit (.glUniform3f r.1 vector.x vector.y vector.z) else r.2
  else m

/-- The overload `Shader::setParameter(std::string const &, Color const &)`. -/
def setParameterColor (gl : Driver) (m : Machine F) (name : String) (color : Color F) :
    Machine F :=
  if m.shader.m_program ≠ 0 then
    let m := m.emit (.glUseProgram m.shader.m_program)
    let r := getParamIndex gl m name
    if r.1 ≠ -1 then r.2.emit (.glUniform4f r.1 color.r color.g color.b color.a) else r.2
  else m

/-- The overload `Shader::setParameter(std::string const &, Matrix const &)`; `GL_FALSE` is the
transpose flag. -/
def setParameterMatrix (gl : Driver) (m : Machine F) (name : String) (matrix : Matrix F) :
    Machine F :=
  if m.shader.m_program ≠ 0 then
    let m := m.emit (.glUseProgram m.shader.m_program)
    let r := getParamIndex gl m name
    if r.1 ≠ -1 then r.2.emit (.glUniformMatrix4fv r.1 1 false matrix.getMatrix) else r.2
  else m

/-- The overload `Shader::setParameter(std::string const &, std::size_t, DirectionalLight &)`.
The stream `s` holds `name << "[" << index << "]."`, the index printed in decimal. -/
def setParameterLight [Add F] [Mul F] [Div F] (sqrt : F → F) (gl : Driver) (m : Machine F)
    (name : String) (index : Nat) (light : DirectionalLight F) : Machine F :=
  if m.shader.m_program ≠ 0 then
    let m := m.emit (.glUseProgram m.shader.m_program)
    let s := name ++ "[" ++ toString index ++ "]."
    let m := setParameterColor gl m (s ++ "color") light.getColor
    let m := setParameterVector3 gl m (s ++ "direction") (light.getRotatedDirection.normalize sqrt)
    let m := setParameterFloat gl m (s ++ "ambient_intensity") light.getAmbientIntensity
    let m := setParameterFloat gl m (s ++ "diffuse_intensity") light.getDiffuseIntensity
    m
  else m

/-- The loop `for (i = 0u; i < lights.size(); i++) setParameter(name, i, lights[i]);` entered at
index `i` with the elements from `i` on still to be visited. -/
def setParameterLightsLoop [Add F] [Mul F] [Div F] (sqrt : F → F) (gl : Driver) (name : String) :
    Nat → List (DirectionalLight F) → Machine F → Machine F
  | _, [], m => m
  | i, light :: rest, m =>
    setParameterLightsLoop sqrt gl name (i + 1) rest (setParameterLight sqrt gl m name i light)

/-- The overload `Shader::setParameter(std::string const &, std::vector<DirectionalLight> &)`.
`maxLight` is the constant `DirectionalLight::MaxLight`; a failed `assert` aborts the program,
which is the result `none`. -/
def setParameterLights [Add F] [Mul F] [Div F] (maxLight : Nat) (sqrt : F → F) (gl : Driver)
    (m : Machine F) (name : String) (lights : List (DirectionalLight F)) : Option (Machine F) :=
  if m.shader.m_program ≠ 0 then
    let m := m.emit (.glUseProgram m.shader.m_program)
    if lights.length ≤ maxLight then
      some (setParameterLightsLoop sqrt gl name 0 lights m)
    else none
  else some m

end Shader

/-- A value of one of the seven types `Shader::setParameter(name, value)` is overloaded for. -/
inductive Value (F : Type) where
  | sizeT (value : Nat)
  | int (value : Int)
  | float (value : F)
  | vector2 (vector : Vector2 F)
  | vector3 (vector : Vector3 F)
  | color (color : Color F)
  | matrix (matrix : Matrix F)

/-- Overload resolution for `setParameter(name, value)`. -/
def Shader.setParameter {F : Type} (gl : Driver) (m : Machine F) (name : String) :
    Value F → Machine F
  | .sizeT value => Shader.setParameterSizeT gl m name value
  | .int value => Shader.setParameterInt gl m name value
  | .float value => Shader.setParameterFloat gl m name value
  | .vector2 vector => Shader.setParameterVector2 gl m name vector
  | .vector3 vector => Shader.setParameterVector3 gl m name vector
  | .color color => Shader.setParameterColor gl m name color
  | .matrix matrix => Shader.setParameterMatrix gl m name matrix

/-! ## Reading a trace -/

/-- Is the effect a location lookup of the uniform `name`? -/
def Effect.isLookup {F : Type} (name : String) : Effect F → Bool
  | .glGetUniformLocation _ n => decide (n = name)
  | _ => false

/-- Is the effect the "not found" diagnostic for the uniform `name`? -/
def Effect.isNotFound {F : Type} (name : String) : Effect F → Bool
  | .cerr line => decide (line = notFoundLine name)
  | _ => false

/-- The location a uniform upload (`glUniform*`) writes to; `none` for every other effect. -/
def Effect.uploadLocation {F : Type} : Effect F → Option Int
  | .glUniform1ui location _ => some location
  | .glUniform1i location _ => some location
  | .glUniform1f location _ => some location
  | .glUniform2f location _ _ => some location
  | .glUniform3f location _ _ _ => some location
  | .glUniform4f location _ _ _ _ => some location
  | .glUniformMatrix4fv location _ _ _ => some location
  | _ => none

/-- Is the effect a uniform upload? -/
def Effect.isUpload {F : Type} (e : Effect F) : Bool := e.uploadLocation.isSome

/-- How many location lookups of `name` a trace holds. -/
def lookups {F : Type} (name : String) (trace : List (Effect F)) : Nat :=
  trace.countP (Effect.isLookup name)

/-- How many "not found" diagnostics for `name` a trace holds. -/
def notFounds {F : Type} (name : String) (trace : List (Effect F)) : Nat :=
  trace.countP (Effect.isNotFound name)

/-- How many uniform uploads a trace holds. -/
def uploads {F : Type} (trace : List (Effect F)) : Nat :=
  trace.countP Effect.isUpload

/-- The most recent upload to `location` in a trace: what a probe of that uniform observes. -/
def lastUploadAt {F : Type} (location : Int) : List (Effect F) → Option (Effect F)
  | [] => none
  | e :: rest =>
    match lastUploadAt location rest with
    | some later => some later
    | none => if e.uploadLocation = some location then some e else none

/-- The one driver call that uploads exactly the value `x` to `location`. -/
def Value.uploadExact {F : Type} (location : Int) : Value F → Effect F
  | .sizeT x => .glUniform1ui location x
  | .int x => .glUniform1i location x
  | .float x => .glUniform1f location x
  | .vector2 x => .glUniform2f location x.x x.y
  | .vector3 x => .glUniform3f location x.x x.y x.z
  | .color x => .glUniform4f location x.r x.g x.b x.a
  | .matrix x => .glUniformMatrix4fv location 1 false x.getMatrix

/-- The value as the driver receives it: an unsigned value arrives as a `GLuint`, that is
modulo `2 ^ 32`; the other types arrive unchanged. -/
def Value.received {F : Type} : Value F → Value F
  | .sizeT x => .sizeT (toGLuint x)
  | x => x

/-- The one driver call `setParameter(name, x)` issues for a uniform at `location`: the upload
of `x` as the driver receives it. -/
def Value.upload {F : Type} (location : Int) (x : Value F) : Effect F :=
  x.received.uploadExact location

/-- The location a uniform name resolves to through the cache: the cached entry when there is
one, else the answer of the driver for the program of the shader. -/
def Shader.resolve (gl : Driver) (shader : Shader) (name : String) : Int :=
  match shader.m_params.find name with
  | some second => second
  | none => gl.glGetUniformLocation shader.m_program name

/-- What resolving `name` through the cache does to the outside world: nothing when the name is
cached; else one lookup, followed by one diagnostic when the lookup misses. -/
def Shader.resolutionTrace {F : Type} (gl : Driver) (shader : Shader) (name : String) :
    List (Effect F) :=
  match shader.m_params.find name with
  | some _ => []
  | none =>
    Effect.glGetUniformLocation shader.m_program name ::
      (if gl.glGetUniformLocation shader.m_program name = -1
        then [Effect.cerr (notFoundLine name)] else [])

/-- One query of a uniform name: directly, or through `setParameter(name, x)`. -/
inductive Query (F : Type) where
  | getParamIndex (name : String)
  | setParameter (name : String) (x : Value F)

/-- Perform one query. -/
def Query.run {F : Type} (gl : Driver) (m : Machine F) : Query F → Machine F
  | .getParamIndex name => (Shader.getParamIndex gl m name).2
  | .setParameter name x => Shader.setParameter gl m name x

/-- Perform a sequence of queries, first to last. -/
def runQueries {F : Type} (gl : Driver) (m : Machine F) (qs : List (Query F)) : Machine F :=
  qs.foldl (Query.run gl) m

/-- A driver whose linked program exposes the single uniform `gain`, at location `3`. -/
def gainDriver : Driver := ⟨fun _ name => if name = "gain" then 3 else -1⟩

/-- A driver whose linked program exposes the single uniform `count`, at location `3`. -/
def countDriver : Driver := ⟨fun _ name => if name = "count" then 3 else -1⟩

/-- A freshly linked shader (program handle `1`, empty cache) that has done nothing yet. -/
def freshShader (F : Type) : Machine F :=
  { shader := { m_program := 1, m_shaders := (2, 3), m_attributes := [0, 1, 2, -1],
                m_params := [] },
    trace := [] }

/-- A shader whose program handle is zero (with a cache entry and a past), for `F = ℚ`. -/
def deadShader : Machine ℚ :=
  { shader := { m_program := 0, m_shaders := (0, 0), m_attributes := [-1, -1, -1, -1],
                m_params := [("gain", 3)] },
    trace := [Effect.cerr "ERROR: Could not create a shader."] }


/-- The state `m'` comes after `m` with the cache entry of `n` respected: an entry present
in `m` is still there and no lookup or diagnostic for `n` was added; at most one of each was
added at all; and none was added when `n` is still not cached in `m'`. -/
structure CacheStep {F : Type} (n : String) (m m' : Machine F) : Prop where
  keep : ∀ v, m.shader.m_params.find n = some v →
    m'.shader.m_params.find n = some v ∧ lookups n m'.trace = lookups n m.trace
      ∧ notFounds n m'.trace = notFounds n m.trace
  bound : lookups n m'.trace ≤ lookups n m.trace + 1
    ∧ notFounds n m'.trace ≤ notFounds n m.trace + 1
  quiet : m'.shader.m_params.find n = none →
    lookups n m'.trace = lookups n m.trace ∧ notFounds n m'.trace = notFounds n m.trace

/-! ## Light uploads read as a plan of named uploads -/

/-- The uniform name `name[index].field`, the index printed in decimal. -/
def lightKey (name : String) (index : Nat) (field : String) : String :=
  name ++ "[" ++ toString index ++ "]." ++ field

/-- The four sub-fields of a directional light, in upload order. -/
def lightFields : List String :=
  ["color", "direction", "ambient_intensity", "diffuse_intensity"]

/-- The four named uploads the spec gives for the light at `index`. -/
def lightPlan {F : Type} [Add F] [Mul F] [Div F] (sqrt : F → F) (name : String) (index : Nat)
    (light : DirectionalLight F) : List (String × Value F) :=
  [ (lightKey name index "color", Value.color light.getColor),
    (lightKey name index "direction",
      Value.vector3 (light.getRotatedDirection.normalize sqrt)),
    (lightKey name index "ambient_intensity", Value.float light.getAmbientIntensity),
    (lightKey name index "diffuse_intensity", Value.float light.getDiffuseIntensity) ]

/-- Perform named uploads one after the other with `setParameter(name, value)`. -/
def applyUploads {F : Type} (gl : Driver) (m : Machine F) (plan : List (String × Value F)) :
    Machine F :=
  plan.foldl (fun m kv => Shader.setParameter gl m kv.1 kv.2) m

/-- Reading a decimal numeral back, most significant digit first. -/
def readDecimal (cs : List Char) : Nat :=
  cs.foldl (fun acc c => acc * 10 + (c.toNat - 48)) 0

/-- The state `m'` comes after `m` by queries and uploads of names in `K` only: the program
handle and the location every name resolves to are as before; for a name outside `K` the
cache entry, the lookups and the diagnostics are as before; and a location that no name of `K`
resolves to has received no upload. -/
structure TouchesOnly {F : Type} (gl : Driver) (K : String → Prop) (m m' : Machine F) :
    Prop where
  program : m'.shader.m_program = m.shader.m_program
  resolve : ∀ n, Shader.resolve gl m'.shader n = Shader.resolve gl m.shader n
  cache : ∀ n, ¬ K n → m'.shader.m_params.find n = m.shader.m_params.find n
  silent : ∀ n, ¬ K n →
    lookups n m'.trace = lookups n m.trace ∧ notFounds n m'.trace = notFounds n m.trace
  last : ∀ location, (∀ n, K n → Shader.resolve gl m.shader n ≠ location) →
    lastUploadAt location m'.trace = lastUploadAt location m.trace

/-- A driver whose linked program declares `directional_lights[3]`: the twelve uniforms
`directional_lights[i].field`, at locations `4 * i + (0, 1, 2, 3)`. -/
def lightsDriver : Driver :=
  ⟨fun _ name =>
    (ParamMap.find
      [ ("directional_lights[0].color", 0), ("directional_lights[0].direction", 1),
        ("directional_lights[0].ambient_intensity", 2),
        ("directional_lights[0].diffuse_intensity", 3),
        ("directional_lights[1].color", 4), ("directional_lights[1].direction", 5),
        ("directional_lights[1].ambient_intensity", 6),
        ("directional_lights[1].diffuse_intensity", 7),
        ("directional_lights[2].color", 8), ("directional_lights[2].direction", 9),
        ("directional_lights[2].ambient_intensity", 10),
        ("directional_lights[2].diffuse_intensity", 11) ] name).getD (-1)⟩

/-- A directional light of the given colour pointing down, with the default intensities. -/
def lightOfColor (color : Color ℚ) : DirectionalLight ℚ :=
  { getColor := color, getRotatedDirection := ⟨0, -1, 0⟩,
    getAmbientIntensity := 1 / 10, getDiffuseIntensity := 4 / 5 }

/-- A linked shader (handle `1`, empty cache) whose previous frame uploaded the colour
`(0, 0, 1, 1)` to `directional_lights[2].color` (location `8`). -/
def shaderAfterFrame : Machine ℚ :=
  { shader := { m_program := 1, m_shaders := (2, 3), m_attributes := [0, 1, 2, -1],
                m_params := [] },
    trace := [Effect.glUseProgram 1, Effect.glUniform4f 8 0 0 1 1] }


/-- Upload element `j` of the sequence to array index `j`, for `j = 0, 1, …` in ascending
order, each with the indexed form of `setParameter`. -/
def uploadLightsInOrder {F : Type} [Add F] [Mul F] [Div F] (sqrt : F → F) (gl : Driver)
    (name : String) (lights : List (DirectionalLight F)) (m : Machine F) : Machine F :=
  lights.enum.foldl (fun m jl => Shader.setParameterLight sqrt gl m name jl.1 jl.2) m

/-- The keys `name[j].field` of the four sub-fields, for the indices `j` from `first` up to
but not including `bound`. -/
def IsLightKey (name : String) (first bound : Nat) (n : String) : Prop :=
  ∃ j, first ≤ j ∧ j < bound ∧ ∃ f ∈ lightFields, n = lightKey name j f


/-! ## The render loop (sources/main.cpp) -/

/-- The expressions of `main` that can be handed to `phong->setParameter`: the three camera
getters, and the two light sequences held by the light manager `lights`. -/
inductive Argument where
  | cameraGetProjectionMatrix
  | cameraGetViewMatrix
  | cameraGetPosition
  | directionalLights
  | pointLights
  deriving DecidableEq

/-- The calls the body of the loop makes on its collaborators, with their arguments. -/
inductive LoopCall (F : Type) where
  | keyboardIsKeyPressedEscape
  | winClose
  | lightsUpdate
  | cameraUpdate (frametime : F)
  | modelRotateY (angle : F)
  | light2Translate (vector : Vector3 F)
  | winClear
  | phongSetParameter (name : String) (value : Argument)
  | modelDraw
  | winDisplay
  | winPollEvents

/-- The local variables of `main` that the loop updates, and the calls made so far, oldest
first. -/
structure LoopState (F : Type) where
  lastTime : F
  dt : F
  timer : F
  calls : List (LoopCall F)

/-- What one iteration reads from outside: the value of `glfwGetTime()` and whether the escape
key is down. -/
structure Sample (F : Type) where
  currentTime : F
  escapePressed : Bool

/-- Record one more call. -/
def LoopState.call {F : Type} (s : LoopState F) (c : LoopCall F) : LoopState F :=
  { s with calls := s.calls ++ [c] }

/-- The state of `main` on entry to the loop: `lastTime = dt = timer = 0.f`. -/
def LoopState.initial (F : Type) [Zero F] : LoopState F :=
  { lastTime := 0, dt := 0, timer := 0, calls := [] }

/-- The loop `while (dt > frameLimit) dt -= frameLimit;`, in the arithmetic of `F`.  `fuel`
bounds the number of times the condition is evaluated; `none` when that is not enough. -/
def drain {F : Type} [LT F] [DecidableRel (fun a b : F => a < b)] [Sub F] (frameLimit : F) :
    Nat → F → Option F
  | 0, _ => none
  | fuel + 1, dt => if dt > frameLimit then drain frameLimit fuel (dt - frameLimit) else some dt

section Loop

variable {F : Type} [LinearOrderedField F]

/-- The constant `frameLimit = 1.f / 300.f` of `main`. -/
def frameLimit : F := 1 / 300

/-- One pass through the body of `while (win.isOpen())`.  `cos` is `std::cos`; `fuel` is the
fuel of the drain loop. -/
def iteration (cos : F → F) (frameLimit : F) (fuel : Nat) (s : LoopState F)
    (input : Sample F) : Option (LoopState F) :=
  let currentTime := input.currentTime
  let frametime := currentTime - s.lastTime
  let s := { s with lastTime := currentTime }
  let s := { s with dt := s.dt + frametime }
  if s.dt < frameLimit then
    some s
  else
    let s := { s with timer := s.timer + s.dt }
    let s := s.call .keyboardIsKeyPressedEscape
    let s := if input.escapePressed then s.call .winClose else s
    let s := s.call .lightsUpdate
    let s := s.call (.cameraUpdate s.dt)
    let s := s.call (.modelRotateY (s.dt * 40))
    let s := s.call (.light2Translate ((⟨5 / 100, 0, 0⟩ : Vector3 F).mulScalar (cos s.timer)))
    match drain frameLimit fuel s.dt with
    | none => none
    | some dt =>
      let s := { s with dt := dt }
      let s := s.call .winClear
      let s := s.call (.phongSetParameter "ProjectionMatrix" .cameraGetProjectionMatrix)
      let s := s.call (.phongSetParameter "ViewMatrix" .cameraGetViewMatrix)
      let s := s.call (.phongSetParameter "view_position" .cameraGetPosition)
      let s := s.call .modelDraw
      let s := s.call .winDisplay
      let s := s.call .winPollEvents
      some s

/-- The loop over the iterations for which `win.isOpen()` held, one sample each. -/
def runLoop (cos : F → F) (frameLimit : F) (fuel : Nat) :
    LoopState F → List (Sample F) → Option (LoopState F)
  | s, [] => some s
  | s, input :: rest =>
    match iteration cos frameLimit fuel s input with
    | none => none
    | some s => runLoop cos frameLimit fuel s rest

/-- The accumulated `dt` of an iteration, after `dt += frametime`. -/
def accumulated (s : LoopState F) (input : Sample F) : F :=
  s.dt + (input.currentTime - s.lastTime)

/-- The state after a skipped iteration: only `lastTime` and `dt` have changed. -/
def skipped (s : LoopState F) (input : Sample F) : LoopState F :=
  { s with lastTime := input.currentTime, dt := accumulated s input }

/-- The calls of the update part of an iteration that is not skipped, from the input read up
to the drain. -/
def updateCalls (cos : F → F) (s : LoopState F) (input : Sample F) : List (LoopCall F) :=
  [LoopCall.keyboardIsKeyPressedEscape]
    ++ (if input.escapePressed then [LoopCall.winClose] else [])
    ++ [LoopCall.lightsUpdate, LoopCall.cameraUpdate (accumulated s input),
        LoopCall.modelRotateY (accumulated s input * 40),
        LoopCall.light2Translate
          ((⟨5 / 100, 0, 0⟩ : Vector3 F).mulScalar (cos (s.timer + accumulated s input)))]

/-- The uploads between the clear and the draw of an iteration that is not skipped. -/
def drawUploads : List (LoopCall F) :=
  [LoopCall.phongSetParameter "ProjectionMatrix" Argument.cameraGetProjectionMatrix,
   LoopCall.phongSetParameter "ViewMatrix" Argument.cameraGetViewMatrix,
   LoopCall.phongSetParameter "view_position" Argument.cameraGetPosition]

/-- The calls of the draw part of an iteration that is not skipped. -/
def drawCalls : List (LoopCall F) :=
  [LoopCall.winClear] ++ drawUploads ++
    [LoopCall.modelDraw, LoopCall.winDisplay, LoopCall.winPollEvents]

end Loop

/-- Is the call `camera.update(...)`? -/
def LoopCall.isCameraUpdate {F : Type} : LoopCall F → Bool
  | .cameraUpdate _ => true
  | _ => false

/-- Is the call an upload of a light sequence of the light manager to the shader? -/
def LoopCall.isLightArrayUpload {F : Type} : LoopCall F → Bool
  | .phongSetParameter _ .directionalLights => true
  | .phongSetParameter _ .pointLights => true
  | _ => false

/-- The statement that, in the calls of one iteration, the light arrays are uploaded after the
framebuffer clear and before the draw. -/
def UploadsLightsBetweenClearAndDraw {F : Type} (calls : List (LoopCall F)) : Prop :=
  ∃ pre mid post, calls = pre ++ LoopCall.winClear :: mid ++ LoopCall.modelDraw :: post
    ∧ ∃ c ∈ mid, c.isLightArrayUpload = true


/-! ## Theorems: Vector3 -/

/-- C1: `v * M` has components `res.i = Σ_{j<3} m[4*i+j] * v.j` for the row-major buffer `m`
of `M`; replacing the entries of row 3 and column 3 (`m[3], m[7], m[11], m[12..15]`) by
arbitrary values does not change the result.  The operand `v` is an immutable argument of the
embedding, as the method is `const`. -/
theorem Vector3.mulMatrix_upper_left {F : Type} [Mul F] [AddZeroClass F]
    (v : Vector3 F) (M : Matrix F) :
    (v.mulMatrix M).x
        = M.getMatrix 0 * v.x + M.getMatrix 1 * v.y + M.getMatrix 2 * v.z
      ∧ (v.mulMatrix M).y
        = M.getMatrix 4 * v.x + M.getMatrix 5 * v.y + M.getMatrix 6 * v.z
      ∧ (v.mulMatrix M).z
        = M.getMatrix 8 * v.x + M.getMatrix 9 * v.y + M.getMatrix 10 * v.z
      ∧ ∀ other : Matrix F, v.mulMatrix (M.replaceLastRowAndColumn other) = v.mulMatrix M := by
  refine ⟨?_, ?_, ?_, ?_⟩
  · simp [Vector3.mulMatrix, Vector3.init]
  · simp [Vector3.mulMatrix, Vector3.init]
  · simp [Vector3.mulMatrix, Vector3.init]
  · intro other
    simp [Vector3.mulMatrix, Vector3.init, Matrix.replaceLastRowAndColumn, lastRowOrColumn]

theorem Vector3.length_normalize_real (v : Vector3 ℝ) (hv : v ≠ ⟨0, 0, 0⟩) :
    (v.normalize Real.sqrt).length Real.sqrt = 1 := by
  have hpos : 0 < v.x * v.x + v.y * v.y + v.z * v.z := by
    rcases v with ⟨x, y, z⟩
    have hne : ¬ (x = 0 ∧ y = 0 ∧ z = 0) := by
      rintro ⟨rfl, rfl, rfl⟩
      exact hv rfl
    by_contra hle
    have h0 : x * x + y * y + z * z ≤ 0 := not_lt.mp hle
    have hx : x = 0 := by nlinarith [mul_self_nonneg x, mul_self_nonneg y, mul_self_nonneg z]
    have hy : y = 0 := by nlinarith [mul_self_nonneg x, mul_self_nonneg y, mul_self_nonneg z]
    have hz : z = 0 := by nlinarith [mul_self_nonneg x, mul_self_nonneg y, mul_self_nonneg z]
    exact hne ⟨hx, hy, hz⟩
  have hsq : Real.sqrt (v.x * v.x + v.y * v.y + v.z * v.z)
      * Real.sqrt (v.x * v.x + v.y * v.y + v.z * v.z)
      = v.x * v.x + v.y * v.y + v.z * v.z := Real.mul_self_sqrt hpos.le
  have hlen : 0 < Real.sqrt (v.x * v.x + v.y * v.y + v.z * v.z) := Real.sqrt_pos.mpr hpos
  simp only [Vector3.normalize, Vector3.length]
  set len := Real.sqrt (v.x * v.x + v.y * v.y + v.z * v.z) with hlen_def
  have hsum : v.x / len * (v.x / len) + v.y / len * (v.y / len) + v.z / len * (v.z / len)
      = 1 := by
    field_simp
    nlinarith [hsq]
  rw [hsum, Real.sqrt_one]

/-! ## Lemmas: the uniform-location cache -/

section CacheLemmas

variable {F : Type}

theorem notFoundLine_injective {k n : String} (h : notFoundLine k = notFoundLine n) : k = n := by
  unfold notFoundLine at h
  have h1 := congrArg String.data h
  simp only [String.data_append, List.append_assoc] at h1
  have h2 := List.append_cancel_left h1
  have h3 := List.append_cancel_right h2
  exact String.ext h3

theorem Shader.getParamIndex_cached {gl : Driver} {m : Machine F} {name : String} {v : Int}
    (h : m.shader.m_params.find name = some v) : Shader.getParamIndex gl m name = (v, m) := by
  simp [Shader.getParamIndex, h]

theorem Shader.getParamIndex_fresh {gl : Driver} {m : Machine F} {name : String}
    (h : m.shader.m_params.find name = none) :
    Shader.getParamIndex gl m name
      = (gl.glGetUniformLocation m.shader.m_program name,
          { shader := { m.shader with
              m_params := (name, gl.glGetUniformLocation m.shader.m_program name)
                :: m.shader.m_params },
            trace := m.trace ++ Shader.resolutionTrace gl m.shader name }) := by
  by_cases hl : gl.glGetUniformLocation m.shader.m_program name = -1
  · simp [Shader.getParamIndex, Shader.resolutionTrace, ParamMap.insert, Machine.emit, h, hl]
  · simp [Shader.getParamIndex, Shader.resolutionTrace, ParamMap.insert, Machine.emit, h, hl]

theorem Shader.getParamIndex_fst (gl : Driver) (m : Machine F) (name : String) :
    (Shader.getParamIndex gl m name).1 = Shader.resolve gl m.shader name := by
  cases h : m.shader.m_params.find name with
  | some v => simp [Shader.getParamIndex_cached h, Shader.resolve, h]
  | none => simp [Shader.getParamIndex_fresh h, Shader.resolve, h]

theorem Shader.getParamIndex_trace (gl : Driver) (m : Machine F) (name : String) :
    (Shader.getParamIndex gl m name).2.trace
      = m.trace ++ Shader.resolutionTrace gl m.shader name := by
  cases h : m.shader.m_params.find name with
  | some v => simp [Shader.getParamIndex_cached h, Shader.resolutionTrace, h]
  | none => simp [Shader.getParamIndex_fresh h]

theorem Shader.getParamIndex_program (gl : Driver) (m : Machine F) (name : String) :
    (Shader.getParamIndex gl m name).2.shader.m_program = m.shader.m_program := by
  cases h : m.shader.m_params.find name with
  | some v => simp [Shader.getParamIndex_cached h]
  | none => simp [Shader.getParamIndex_fresh h]

theorem Shader.getParamIndex_stores (gl : Driver) (m : Machine F) (name : String) :
    (Shader.getParamIndex gl m name).2.shader.m_params.find name
      = some (Shader.getParamIndex gl m name).1 := by
  cases h : m.shader.m_params.find name with
  | some v => simp [Shader.getParamIndex_cached h, h]
  | none => simp [Shader.getParamIndex_fresh h, ParamMap.find]

/-- A query of `k` leaves the cache entry of every other name as it was. -/
theorem Shader.getParamIndex_find_other (gl : Driver) (m : Machine F) {k n : String}
    (hkn : k ≠ n) :
    (Shader.getParamIndex gl m k).2.shader.m_params.find n = m.shader.m_params.find n := by
  cases h : m.shader.m_params.find k with
  | some v => simp [Shader.getParamIndex_cached h]
  | none => simp [Shader.getParamIndex_fresh h, ParamMap.find, hkn]

/-- A cached entry is never replaced. -/
theorem Shader.getParamIndex_find_keep (gl : Driver) (m : Machine F) (k : String) {n : String}
    {v : Int} (hn : m.shader.m_params.find n = some v) :
    (Shader.getParamIndex gl m k).2.shader.m_params.find n = some v := by
  by_cases hkn : k = n
  · subst hkn
    simp [Shader.getParamIndex_cached hn, hn]
  · rw [Shader.getParamIndex_find_other gl m hkn, hn]

end CacheLemmas

section CacheStepLemmas

variable {F : Type}

theorem cacheStep_refl (n : String) (m : Machine F) : CacheStep n m m :=
  ⟨fun _ h => ⟨h, rfl, rfl⟩, ⟨Nat.le_succ _, Nat.le_succ _⟩, fun _ => ⟨rfl, rfl⟩⟩

theorem cacheStep_trans {n : String} {m m' m'' : Machine F} (h1 : CacheStep n m m')
    (h2 : CacheStep n m' m'') : CacheStep n m m'' := by
  refine ⟨?_, ?_, ?_⟩
  · intro v hv
    obtain ⟨a, b, c⟩ := h1.keep v hv
    obtain ⟨a', b', c'⟩ := h2.keep v a
    exact ⟨a', b'.trans b, c'.trans c⟩
  · cases hc : m'.shader.m_params.find n with
    | some v =>
      obtain ⟨_, b', c'⟩ := h2.keep v hc
      rw [b', c']
      exact h1.bound
    | none =>
      obtain ⟨b, c⟩ := h1.quiet hc
      rw [← b, ← c]
      exact h2.bound
  · intro hq
    have hc : m'.shader.m_params.find n = none := by
      cases hc : m'.shader.m_params.find n with
      | none => rfl
      | some v =>
        have := (h2.keep v hc).1
        rw [hq] at this
        cases this
    obtain ⟨b, c⟩ := h1.quiet hc
    obtain ⟨b', c'⟩ := h2.quiet hq
    exact ⟨b'.trans b, c'.trans c⟩

theorem cacheStep_emit (n : String) (m : Machine F) (e : Effect F)
    (h1 : e.isLookup n = false) (h2 : e.isNotFound n = false) : CacheStep n m (m.emit e) := by
  have hl : lookups n (m.emit e).trace = lookups n m.trace := by
    simp [lookups, Machine.emit, List.countP_append, List.countP_cons, h1]
  have hf : notFounds n (m.emit e).trace = notFounds n m.trace := by
    simp [notFounds, Machine.emit, List.countP_append, List.countP_cons, h2]
  refine ⟨fun v hv => ⟨hv, hl, hf⟩, ?_, fun _ => ⟨hl, hf⟩⟩
  rw [hl, hf]
  exact ⟨Nat.le_succ _, Nat.le_succ _⟩

theorem cacheStep_getParamIndex (gl : Driver) (n : String) (m : Machine F) (k : String) :
    CacheStep n m (Shader.getParamIndex gl m k).2 := by
  cases hk : m.shader.m_params.find k with
  | some v =>
    rw [Shader.getParamIndex_cached hk]
    exact cacheStep_refl n m
  | none =>
    by_cases hkn : k = n
    · subst hkn
      have hst := Shader.getParamIndex_stores gl m k
      refine ⟨?_, ?_, ?_⟩
      · intro v hv
        rw [hk] at hv
        cases hv
      · rw [Shader.getParamIndex_trace]
        unfold Shader.resolutionTrace
        rw [hk]
        by_cases hl : gl.glGetUniformLocation m.shader.m_program k = -1
        · simp [lookups, notFounds, List.countP_append, List.countP_cons, Effect.isLookup,
            Effect.isNotFound, hl]
        · simp [lookups, notFounds, List.countP_append, List.countP_cons, Effect.isLookup,
            Effect.isNotFound, hl]
      · intro hq
        rw [hst] at hq
        cases hq
    · have hne : ¬ notFoundLine k = notFoundLine n := fun h => hkn (notFoundLine_injective h)
      have hl : lookups n (Shader.getParamIndex gl m k).2.trace = lookups n m.trace := by
        rw [Shader.getParamIndex_trace]
        unfold Shader.resolutionTrace
        rw [hk]
        by_cases hl : gl.glGetUniformLocation m.shader.m_program k = -1
        · simp [lookups, List.countP_append, List.countP_cons, Effect.isLookup, hl, hkn]
        · simp [lookups, List.countP_append, List.countP_cons, Effect.isLookup, hl, hkn]
      have hf : notFounds n (Shader.getParamIndex gl m k).2.trace = notFounds n m.trace := by
        rw [Shader.getParamIndex_trace]
        unfold Shader.resolutionTrace
        rw [hk]
        by_cases hl : gl.glGetUniformLocation m.shader.m_program k = -1
        · simp [notFounds, List.countP_append, List.countP_cons, Effect.isNotFound, hl, hne]
        · simp [notFounds, List.countP_append, List.countP_cons, Effect.isNotFound, hl, hne]
      refine ⟨fun v hv => ⟨?_, hl, hf⟩, ?_, fun _ => ⟨hl, hf⟩⟩
      · rw [Shader.getParamIndex_find_other gl m hkn]
        exact hv
      · rw [hl, hf]
        exact ⟨Nat.le_succ _, Nat.le_succ _⟩

/-- The shape shared by the seven value overloads. -/
theorem Shader.setParameter_eq (gl : Driver) (m : Machine F) (name : String) (x : Value F) :
    Shader.setParameter gl m name x
      = if m.shader.m_program ≠ 0 then
          (if (Shader.getParamIndex gl (m.emit (.glUseProgram m.shader.m_program)) name).1 ≠ -1
            then (Shader.getParamIndex gl (m.emit (.glUseProgram m.shader.m_program)) name).2.emit
              (x.upload
                (Shader.getParamIndex gl (m.emit (.glUseProgram m.shader.m_program)) name).1)
            else (Shader.getParamIndex gl (m.emit (.glUseProgram m.shader.m_program)) name).2)
        else m := by
  cases x <;> rfl

theorem Value.upload_isLookup (n : String) (location : Int) (x : Value F) :
    (x.upload location).isLookup n = false := by
  cases x <;> rfl

theorem Value.upload_isNotFound (n : String) (location : Int) (x : Value F) :
    (x.upload location).isNotFound n = false := by
  cases x <;> rfl

theorem cacheStep_setParameter (gl : Driver) (n : String) (m : Machine F) (k : String)
    (x : Value F) : CacheStep n m (Shader.setParameter gl m k x) := by
  rw [Shader.setParameter_eq]
  by_cases hp : m.shader.m_program = 0
  · simp only [hp, ne_eq, not_true_eq_false, if_false]
    exact cacheStep_refl n m
  · simp only [ne_eq, hp, not_false_eq_true, if_true]
    have s1 : CacheStep n m (m.emit (.glUseProgram m.shader.m_program)) :=
      cacheStep_emit n m _ rfl rfl
    have s2 := cacheStep_getParamIndex gl n (m.emit (.glUseProgram m.shader.m_program)) k
    split
    · exact cacheStep_trans (cacheStep_trans s1 s2)
        (cacheStep_emit n _ _ (Value.upload_isLookup n _ x) (Value.upload_isNotFound n _ x))
    · exact cacheStep_trans s1 s2

theorem cacheStep_runQueries (gl : Driver) (n : String) (qs : List (Query F)) :
    ∀ m : Machine F, CacheStep n m (runQueries gl m qs) := by
  induction qs with
  | nil => intro m; exact cacheStep_refl n m
  | cons q qs ih =>
    intro m
    have hq : CacheStep n m (Query.run gl m q) := by
      cases q with
      | getParamIndex k => exact cacheStep_getParamIndex gl n m k
      | setParameter k x => exact cacheStep_setParameter gl n m k x
    exact cacheStep_trans hq (ih _)

end CacheStepLemmas

/-! ## Theorems: Shader -/

/-- C3: over any sequence of queries (of this or of other names, directly through
`getParamIndex` or through `setParameter`), at most one location lookup of `name` and at most
one "not found" diagnostic for `name` are added.  A first query resolves the location (the
cached entry, else one driver lookup followed by the diagnostic on a miss) and stores what it
returns, `-1` included; after it every query of `name` returns the stored value and adds no
lookup and no diagnostic.  For `setParameter("gain", 0.25f); setParameter("gain", 0.5f)` on a
freshly linked shader the lookup happens exactly once. -/
theorem Shader.getParamIndex_at_most_one_lookup {F : Type} (gl : Driver) (m : Machine F)
    (name : String) (qs : List (Query F)) :
    lookups name (runQueries gl m qs).trace ≤ lookups name m.trace + 1
      ∧ notFounds name (runQueries gl m qs).trace ≤ notFounds name m.trace + 1
      ∧ (Shader.getParamIndex gl m name).1 = Shader.resolve gl m.shader name
      ∧ (Shader.getParamIndex gl m name).2.trace
          = m.trace ++ Shader.resolutionTrace gl m.shader name
      ∧ (Shader.getParamIndex gl m name).2.shader.m_params.find name
          = some (Shader.getParamIndex gl m name).1
      ∧ Shader.getParamIndex gl (runQueries gl (Shader.getParamIndex gl m name).2 qs) name
          = ((Shader.getParamIndex gl m name).1,
              runQueries gl (Shader.getParamIndex gl m name).2 qs)
      ∧ lookups name (runQueries gl (Shader.getParamIndex gl m name).2 qs).trace
          = lookups name (Shader.getParamIndex gl m name).2.trace
      ∧ notFounds name (runQueries gl (Shader.getParamIndex gl m name).2 qs).trace
          = notFounds name (Shader.getParamIndex gl m name).2.trace
      ∧ lookups "gain" (runQueries gainDriver (freshShader ℚ)
          [.setParameter "gain" (.float (1 / 4)), .setParameter "gain" (.float (1 / 2))]).trace
          = 1 := by
  have hall := cacheStep_runQueries gl name qs m
  have hst := Shader.getParamIndex_stores gl m name
  have hlater := (cacheStep_runQueries gl name qs (Shader.getParamIndex gl m name).2).keep _ hst
  refine ⟨hall.bound.1, hall.bound.2, Shader.getParamIndex_fst gl m name,
    Shader.getParamIndex_trace gl m name, hst, Shader.getParamIndex_cached hlater.1,
    hlater.2.1, hlater.2.2, ?_⟩
  decide


section UploadLemmas

variable {F : Type}

theorem Value.upload_uploadLocation (location : Int) (x : Value F) :
    (x.upload location).uploadLocation = some location := by
  cases x <;> rfl

theorem lastUploadAt_append_upload (location : Int) (t : List (Effect F)) (e : Effect F)
    (he : e.uploadLocation = some location) : lastUploadAt location (t ++ [e]) = some e := by
  induction t with
  | nil => simp [lastUploadAt, he]
  | cons a t ih => simp [lastUploadAt, ih]

theorem lastUploadAt_append_other (location : Int) (t t2 : List (Effect F))
    (h2 : ∀ e ∈ t2, e.uploadLocation ≠ some location) :
    lastUploadAt location (t ++ t2) = lastUploadAt location t := by
  have hnone : lastUploadAt location t2 = none := by
    induction t2 with
    | nil => rfl
    | cons a t2 ih =>
      have ha := h2 a (List.mem_cons_self _ _)
      have ht := ih (fun e he => h2 e (List.mem_cons_of_mem _ he))
      simp [lastUploadAt, ht, ha]
  induction t with
  | nil => simp [hnone, lastUploadAt]
  | cons a t ih => simp [lastUploadAt, ih]

theorem Shader.resolutionTrace_no_upload (gl : Driver) (shader : Shader) (name : String) :
    ∀ e ∈ (Shader.resolutionTrace gl shader name : List (Effect F)), e.uploadLocation = none := by
  intro e he
  unfold Shader.resolutionTrace at he
  cases h : shader.m_params.find name with
  | some v => simp [h] at he
  | none =>
    simp only [h, List.mem_cons] at he
    rcases he with rfl | he
    · rfl
    · split at he
      · simp only [List.mem_singleton] at he
        subst he
        rfl
      · simp at he

theorem Shader.setParameter_trace (gl : Driver) (m : Machine F) (name : String) (x : Value F)
    (hp : m.shader.m_program ≠ 0) :
    (Shader.setParameter gl m name x).trace
      = m.trace ++ [Effect.glUseProgram m.shader.m_program]
          ++ Shader.resolutionTrace gl m.shader name
          ++ (if Shader.resolve gl m.shader name ≠ -1
                then [x.upload (Shader.resolve gl m.shader name)] else []) := by
  rw [Shader.setParameter_eq]
  simp only [hp, ne_eq, not_false_eq_true, if_true, Shader.getParamIndex_fst]
  have hs : (m.emit (Effect.glUseProgram m.shader.m_program)).shader = m.shader := rfl
  rw [hs]
  by_cases hl : Shader.resolve gl m.shader name = -1
  · simp [hl, Shader.getParamIndex_trace, hs, Machine.emit]
  · simp [hl, Shader.getParamIndex_trace, hs, Machine.emit]

theorem Shader.setParameter_program (gl : Driver) (m : Machine F) (name : String)
    (x : Value F) : (Shader.setParameter gl m name x).shader.m_program = m.shader.m_program := by
  rw [Shader.setParameter_eq]
  split
  · split
    · exact Shader.getParamIndex_program gl _ name
    · exact Shader.getParamIndex_program gl _ name
  · rfl

theorem Shader.setParameter_shader (gl : Driver) (m : Machine F) (name : String)
    (x : Value F) (hp : m.shader.m_program ≠ 0) :
    (Shader.setParameter gl m name x).shader = (Shader.getParamIndex gl m name).2.shader := by
  rw [Shader.setParameter_eq]
  simp only [hp, ne_eq, not_false_eq_true, if_true]
  have key : (Shader.getParamIndex gl (m.emit (Effect.glUseProgram m.shader.m_program))
      name).2.shader = (Shader.getParamIndex gl m name).2.shader := by
    cases h : m.shader.m_params.find name with
    | some v =>
      have h' : (m.emit (Effect.glUseProgram m.shader.m_program)).shader.m_params.find name
          = some v := h
      rw [Shader.getParamIndex_cached h, Shader.getParamIndex_cached h']
      rfl
    | none =>
      have h' : (m.emit (Effect.glUseProgram m.shader.m_program)).shader.m_params.find name
          = none := h
      rw [Shader.getParamIndex_fresh h, Shader.getParamIndex_fresh h']
      rfl
  split
  · exact key
  · exact key

theorem Shader.setParameter_find_self (gl : Driver) (m : Machine F) (name : String)
    (x : Value F) (hp : m.shader.m_program ≠ 0) :
    (Shader.setParameter gl m name x).shader.m_params.find name
      = some (Shader.resolve gl m.shader name) := by
  rw [Shader.setParameter_shader gl m name x hp, Shader.getParamIndex_stores,
    Shader.getParamIndex_fst]

end UploadLemmas

/-- C4, as the code has it: on a shader with a non-zero program handle, `setParameter(name, x)`
calls `glUseProgram`, resolves the location `L` through the cache, and then issues one upload
to `L` exactly when `L ≠ -1`, and no upload when `L = -1`.  The upload is of `x` as the driver
receives it: exactly `x`, except that an unsigned value arrives modulo `2 ^ 32` (so exactly `x`
when `x < 2 ^ 32`).  A second call for the same name adds `glUseProgram` and (only for
`L ≠ -1`) the upload: no lookup and no diagnostic; the cache is as the first call left it.
After two uploads of a present uniform the last value written is the one observed
(`gain = 0.5`). -/
theorem Shader.setParameter_uploads_iff_found {F : Type} (gl : Driver) (m : Machine F)
    (name : String) (x y : Value F) (hp : m.shader.m_program ≠ 0) :
    (Shader.setParameter gl m name x).trace
        = m.trace ++ [Effect.glUseProgram m.shader.m_program]
            ++ Shader.resolutionTrace gl m.shader name
            ++ (if Shader.resolve gl m.shader name ≠ -1
                  then [x.upload (Shader.resolve gl m.shader name)] else [])
      ∧ (uploads (Shader.setParameter gl m name x).trace = uploads m.trace + 1
          ↔ Shader.resolve gl m.shader name ≠ -1)
      ∧ (uploads (Shader.setParameter gl m name x).trace = uploads m.trace
          ↔ Shader.resolve gl m.shader name = -1)
      ∧ (Shader.setParameter gl (Shader.setParameter gl m name x) name y).trace
        = (Shader.setParameter gl m name x).trace ++ [Effect.glUseProgram m.shader.m_program]
            ++ (if Shader.resolve gl m.shader name ≠ -1
                  then [y.upload (Shader.resolve gl m.shader name)] else [])
      ∧ (Shader.setParameter gl (Shader.setParameter gl m name x) name y).shader
        = (Shader.setParameter gl m name x).shader
      ∧ lastUploadAt (Shader.resolve gl m.shader name)
          (Shader.setParameter gl (Shader.setParameter gl m name x) name y).trace
        = (if Shader.resolve gl m.shader name ≠ -1
            then some (y.upload (Shader.resolve gl m.shader name))
            else lastUploadAt (Shader.resolve gl m.shader name) m.trace)
      ∧ lastUploadAt 3 (runQueries gainDriver (freshShader ℚ)
          [.setParameter "gain" (.float (1 / 4)), .setParameter "gain" (.float (1 / 2))]).trace
        = some (Effect.glUniform1f 3 (1 / 2))
      ∧ (∀ location, x.upload location = x.received.uploadExact location)
      ∧ (x.received = x ∨ ∃ v, x = Value.sizeT v ∧ 2 ^ 32 ≤ v)
      ∧ (∀ v, (Value.sizeT v : Value F).received = Value.sizeT (v % 2 ^ 32))
      ∧ (∀ v, v < 2 ^ 32 → (Value.sizeT v : Value F).received = Value.sizeT v) := by
  have h1 := Shader.setParameter_trace gl m name x hp
  have hp1 : (Shader.setParameter gl m name x).shader.m_program ≠ 0 := by
    rw [Shader.setParameter_program]; exact hp
  have hfind := Shader.setParameter_find_self gl m name x hp
  have hres : Shader.resolve gl (Shader.setParameter gl m name x).shader name
      = Shader.resolve gl m.shader name := by
    simp [Shader.resolve, hfind]
  have hrt : (Shader.resolutionTrace gl (Shader.setParameter gl m name x).shader name
      : List (Effect F)) = [] := by
    simp [Shader.resolutionTrace, hfind]
  have h2 := Shader.setParameter_trace gl (Shader.setParameter gl m name x) name y hp1
  rw [hres, hrt, Shader.setParameter_program, List.append_nil] at h2
  have hup : uploads (m.trace ++ [Effect.glUseProgram m.shader.m_program]
      ++ (Shader.resolutionTrace gl m.shader name : List (Effect F))) = uploads m.trace := by
    have h0 : List.countP Effect.isUpload
        (Shader.resolutionTrace gl m.shader name : List (Effect F)) = 0 := by
      rw [List.countP_eq_zero]
      intro e he
      simp [Effect.isUpload, Shader.resolutionTrace_no_upload gl m.shader name e he]
    simp [uploads, List.countP_append, List.countP_cons, Effect.isUpload,
      Effect.uploadLocation, h0]
  refine ⟨h1, ?_, ?_, h2, ?_, ?_, ?_, fun _ => rfl, ?_, fun _ => rfl, ?_⟩
  · rw [h1]
    by_cases hl : Shader.resolve gl m.shader name = -1
    · simp only [hl, ne_eq, not_true_eq_false, if_false, List.append_nil, hup]
      simp
    · simp only [hl, ne_eq, not_false_eq_true, if_true]
      rw [uploads, List.countP_append, ← uploads, hup]
      simp [List.countP_cons, Effect.isUpload, Value.upload_uploadLocation]
  · rw [h1]
    by_cases hl : Shader.resolve gl m.shader name = -1
    · simp only [hl, ne_eq, not_true_eq_false, if_false, List.append_nil, hup]
    · simp only [hl, ne_eq, not_false_eq_true, if_true]
      rw [uploads, List.countP_append, ← uploads, hup]
      simp [List.countP_cons, Effect.isUpload, Value.upload_uploadLocation]
  · rw [Shader.setParameter_shader gl _ name y hp1, Shader.getParamIndex_cached hfind]
  · rw [h2]
    by_cases hl : Shader.resolve gl m.shader name = -1
    · simp only [hl, ne_eq, not_true_eq_false, if_false, List.append_nil]
      rw [lastUploadAt_append_other, h1]
      · simp only [hl, ne_eq, not_true_eq_false, if_false, List.append_nil]
        rw [List.append_assoc, lastUploadAt_append_other]
        intro e he
        simp only [List.mem_append, List.mem_singleton] at he
        rcases he with rfl | he
        · simp [Effect.uploadLocation]
        · simp [Shader.resolutionTrace_no_upload gl m.shader name e he]
      · intro e he
        simp only [List.mem_singleton] at he
        subst he
        simp [Effect.uploadLocation]
    · simp only [hl, ne_eq, not_false_eq_true, if_true]
      exact lastUploadAt_append_upload _ _ _ (Value.upload_uploadLocation _ y)
  · rfl
  · cases x with
    | sizeT v =>
      by_cases hv : v < 2 ^ 32
      · left
        show Value.sizeT (v % 2 ^ 32) = Value.sizeT v
        rw [Nat.mod_eq_of_lt hv]
      · right
        exact ⟨v, rfl, not_lt.mp hv⟩
    | _ => left; rfl
  · intro v hv
    show Value.sizeT (v % 2 ^ 32) = Value.sizeT v
    rw [Nat.mod_eq_of_lt hv]

/-- C4 as stated fails: on a linked shader that exposes `count` at location `3`,
`setParameter("count", x)` with the unsigned value `x = 2 ^ 32 + 5` issues
`glUniform1ui(3, 5)`, not the upload of exactly `x`. -/
theorem Shader.setParameter_sizeT_narrowed :
    (freshShader ℚ).shader.m_program ≠ 0
      ∧ Shader.resolve countDriver (freshShader ℚ).shader "count" ≠ -1
      ∧ (Shader.setParameter countDriver (freshShader ℚ) "count" (.sizeT 4294967301)).trace
        = [Effect.glUseProgram 1, Effect.glGetUniformLocation 1 "count",
            Effect.glUniform1ui 3 5]
      ∧ (Value.sizeT 4294967301 : Value ℚ).uploadExact 3
        ∉ (Shader.setParameter countDriver (freshShader ℚ) "count" (.sizeT 4294967301)).trace := by
  have htrace : (Shader.setParameter countDriver (freshShader ℚ) "count"
      (.sizeT 4294967301)).trace
      = [Effect.glUseProgram 1, Effect.glGetUniformLocation 1 "count",
          Effect.glUniform1ui 3 5] := by rfl
  refine ⟨by decide, by decide, htrace, ?_⟩
  rw [htrace]
  simp [Value.uploadExact]

/-- Witness for C4: the freshly linked shader has handle `1`. -/
theorem Shader.setParameter_uploads_iff_found_witness :
    (freshShader ℚ).shader.m_program ≠ 0
      ∧ (Shader.setParameter gainDriver (freshShader ℚ) "gain" (.float (1 / 4))).trace
        = [Effect.glUseProgram 1, Effect.glGetUniformLocation 1 "gain",
            Effect.glUniform1f 3 (1 / 4)] :=
  ⟨by decide,
    (Shader.setParameter_uploads_iff_found gainDriver (freshShader ℚ) "gain"
      (.float (1 / 4)) (.float (1 / 2)) (by decide)).1.trans (by rfl)⟩


/-- C5: on a shader whose program handle is zero, every overload of `setParameter` returns
with the shader object (cache included) and the trace exactly as they were: no driver call, no
diagnostic; the sequence form returns normally whatever the number of lights, so its size
assertion is not evaluated. -/
theorem Shader.setParameter_zero_handle {F : Type} [Add F] [Mul F] [Div F] (maxLight : Nat)
    (sqrt : F → F) (gl : Driver) (m : Machine F) (name : String) (u : Nat) (i : Int) (f : F)
    (v2 : Vector2 F) (v3 : Vector3 F) (c : Color F) (M : Matrix F) (index : Nat)
    (light : DirectionalLight F) (lights : List (DirectionalLight F))
    (hp : m.shader.m_program = 0) :
    Shader.setParameterSizeT gl m name u = m
      ∧ Shader.setParameterInt gl m name i = m
      ∧ Shader.setParameterFloat gl m name f = m
      ∧ Shader.setParameterVector2 gl m name v2 = m
      ∧ Shader.setParameterVector3 gl m name v3 = m
      ∧ Shader.setParameterColor gl m name c = m
      ∧ Shader.setParameterMatrix gl m name M = m
      ∧ Shader.setParameterLight sqrt gl m name index light = m
      ∧ Shader.setParameterLights maxLight sqrt gl m name lights = some m := by
  simp [Shader.setParameterSizeT, Shader.setParameterInt, Shader.setParameterFloat,
    Shader.setParameterVector2, Shader.setParameterVector3, Shader.setParameterColor,
    Shader.setParameterMatrix, Shader.setParameterLight, Shader.setParameterLights, hp]

/-- Witness for C5: a zero-handle shader and a sequence of two lights with `MaxLight = 1`. -/
theorem Shader.setParameter_zero_handle_witness :
    deadShader.shader.m_program = 0
      ∧ Shader.setParameterLights 1 Rat.sqrt gainDriver deadShader "directional_lights"
          [lightOfColor ⟨1, 0, 0, 1⟩, lightOfColor ⟨0, 1, 0, 1⟩] = some deadShader :=
  ⟨rfl, (Shader.setParameter_zero_handle 1 Rat.sqrt gainDriver deadShader "directional_lights"
    7 (-7) (1 / 2) ⟨0, 1⟩ ⟨0, 1, 0⟩ ⟨1, 0, 0, 1⟩ ⟨fun _ => 0⟩ 0 (lightOfColor ⟨1, 0, 0, 1⟩)
    [lightOfColor ⟨1, 0, 0, 1⟩, lightOfColor ⟨0, 1, 0, 1⟩] rfl).2.2.2.2.2.2.2.2⟩


/-! ## Lemmas: decimal rendering of the light index -/

section DecimalLemmas

theorem digitChar_ne_bracket (d : Nat) (hd : d < 10) : Nat.digitChar d ≠ ']' := by
  interval_cases d <;> decide

theorem digitChar_toNat (d : Nat) (hd : d < 10) : (Nat.digitChar d).toNat - 48 = d := by
  interval_cases d <;> rfl

theorem toDigitsCore_eq (fuel : Nat) : ∀ (n : Nat) (ds : List Char), 0 < n → n < fuel →
    Nat.toDigitsCore 10 fuel n ds = ((Nat.digits 10 n).reverse.map Nat.digitChar) ++ ds := by
  induction fuel with
  | zero => intro n ds _ h; omega
  | succ fuel ih =>
    intro n ds hn hlt
    have hdig : Nat.digits 10 n = (n % 10) :: Nat.digits 10 (n / 10) :=
      Nat.digits_def' (by norm_num) hn
    by_cases h0 : n / 10 = 0
    · simp [Nat.toDigitsCore, h0, hdig]
    · have hpos : 0 < n / 10 := Nat.pos_of_ne_zero h0
      have hlt2 : n / 10 < fuel := by omega
      simp [Nat.toDigitsCore, h0, hdig, ih (n / 10) _ hpos hlt2]

theorem toDigits_eq (n : Nat) (hn : 0 < n) :
    Nat.toDigits 10 n = (Nat.digits 10 n).reverse.map Nat.digitChar := by
  unfold Nat.toDigits
  rw [toDigitsCore_eq (n + 1) n [] hn (Nat.lt_succ_self n)]
  simp

theorem readDecimal_map (l : List Nat) (hl : ∀ d ∈ l, d < 10) (acc : Nat) :
    (l.map Nat.digitChar).foldl (fun acc c => acc * 10 + (c.toNat - 48)) acc
      = l.foldl (fun acc d => acc * 10 + d) acc := by
  induction l generalizing acc with
  | nil => rfl
  | cons a l ih =>
    simp only [List.map_cons, List.foldl_cons]
    rw [digitChar_toNat a (hl a (List.mem_cons_self _ _))]
    exact ih (fun d hd => hl d (List.mem_cons_of_mem _ hd)) _

theorem foldl_reverse_ofDigits (l : List Nat) :
    l.reverse.foldl (fun acc d => acc * 10 + d) 0 = Nat.ofDigits 10 l := by
  induction l with
  | nil => rfl
  | cons a l ih =>
    simp only [List.reverse_cons, List.foldl_append, List.foldl_cons, List.foldl_nil, ih,
      Nat.ofDigits_cons]
    ring

theorem readDecimal_toDigits (n : Nat) : readDecimal (Nat.toDigits 10 n) = n := by
  rcases Nat.eq_zero_or_pos n with rfl | hn
  · rfl
  · rw [toDigits_eq n hn, readDecimal, readDecimal_map, foldl_reverse_ofDigits,
      Nat.ofDigits_digits]
    intro d hd
    exact Nat.digits_lt_base (by norm_num) (List.mem_reverse.mp hd)

theorem toDigits_no_bracket (n : Nat) : ']' ∉ Nat.toDigits 10 n := by
  rcases Nat.eq_zero_or_pos n with rfl | hn
  · decide
  · rw [toDigits_eq n hn]
    intro h
    obtain ⟨d, hd, hc⟩ := List.mem_map.mp h
    exact digitChar_ne_bracket d (Nat.digits_lt_base (by norm_num) (List.mem_reverse.mp hd)) hc

theorem append_cons_cancel {α : Type} (c : α) : ∀ (l1 l2 r1 r2 : List α), c ∉ l1 → c ∉ l2 →
    l1 ++ c :: r1 = l2 ++ c :: r2 → l1 = l2 := by
  intro l1
  induction l1 with
  | nil =>
    intro l2 r1 r2 _ h2 h
    cases l2 with
    | nil => rfl
    | cons b l2 =>
      simp only [List.nil_append, List.cons_append, List.cons.injEq] at h
      exact absurd (h.1 ▸ List.mem_cons_self _ _) h2
  | cons a l1 ih =>
    intro l2 r1 r2 h1 h2 h
    cases l2 with
    | nil =>
      simp only [List.nil_append, List.cons_append, List.cons.injEq] at h
      exact absurd (h.1 ▸ List.mem_cons_self _ _) h1
    | cons b l2 =>
      simp only [List.cons_append, List.cons.injEq] at h
      rw [h.1, ih l2 r1 r2 (fun hc => h1 (List.mem_cons_of_mem _ hc))
        (fun hc => h2 (List.mem_cons_of_mem _ hc)) h.2]

theorem lightKey_data (name : String) (index : Nat) (field : String) :
    (lightKey name index field).data
      = name.data ++ '[' :: (Nat.toDigits 10 index ++ ']' :: '.' :: field.data) := by
  unfold lightKey
  simp only [String.data_append, List.append_assoc]
  rfl

/-- Keys of different indices are different names, whatever the fields. -/
theorem lightKey_index_injective {name : String} {i j : Nat} {f g : String}
    (h : lightKey name i f = lightKey name j g) : i = j := by
  have h1 := congrArg String.data h
  rw [lightKey_data, lightKey_data] at h1
  have h2 := List.append_cancel_left h1
  simp only [List.cons.injEq, true_and] at h2
  have h3 := append_cons_cancel ']' _ _ _ _ (toDigits_no_bracket i) (toDigits_no_bracket j) h2
  have h4 := congrArg readDecimal h3
  rwa [readDecimal_toDigits, readDecimal_toDigits] at h4

end DecimalLemmas

/-! ## Lemmas: which names and locations an upload touches -/

section TouchLemmas

variable {F : Type}

theorem touchesOnly_refl (gl : Driver) (K : String → Prop) (m : Machine F) :
    TouchesOnly gl K m m :=
  ⟨rfl, fun _ => rfl, fun _ _ => rfl, fun _ _ => ⟨rfl, rfl⟩, fun _ _ => rfl⟩

theorem touchesOnly_trans {gl : Driver} {K : String → Prop} {m m' m'' : Machine F}
    (h1 : TouchesOnly gl K m m') (h2 : TouchesOnly gl K m' m'') : TouchesOnly gl K m m'' := by
  refine ⟨h2.program.trans h1.program, fun n => (h2.resolve n).trans (h1.resolve n),
    fun n hn => (h2.cache n hn).trans (h1.cache n hn), ?_, ?_⟩
  · intro n hn
    exact ⟨(h2.silent n hn).1.trans (h1.silent n hn).1,
      (h2.silent n hn).2.trans (h1.silent n hn).2⟩
  · intro location hloc
    rw [h2.last location (fun n hn => by rw [h1.resolve n]; exact hloc n hn)]
    exact h1.last location hloc

theorem touchesOnly_mono {gl : Driver} {K K' : String → Prop} {m m' : Machine F}
    (h : TouchesOnly gl K m m') (hK : ∀ n, K n → K' n) : TouchesOnly gl K' m m' :=
  ⟨h.program, h.resolve, fun n hn => h.cache n (fun hk => hn (hK n hk)),
    fun n hn => h.silent n (fun hk => hn (hK n hk)),
    fun location hloc => h.last location (fun n hn => hloc n (hK n hn))⟩

theorem touchesOnly_emit_useProgram (gl : Driver) (K : String → Prop) (m : Machine F)
    (program : Nat) : TouchesOnly gl K m (m.emit (Effect.glUseProgram program)) := by
  refine ⟨rfl, fun _ => rfl, fun _ _ => rfl, fun n _ => ?_, fun location _ => ?_⟩
  · simp [lookups, notFounds, Machine.emit, List.countP_append, List.countP_cons,
      Effect.isLookup, Effect.isNotFound]
  · exact lastUploadAt_append_other location m.trace _
      (fun e he => by simp only [List.mem_singleton] at he; subst he; simp [Effect.uploadLocation])

theorem Shader.getParamIndex_resolve (gl : Driver) (m : Machine F) (k n : String) :
    Shader.resolve gl (Shader.getParamIndex gl m k).2.shader n = Shader.resolve gl m.shader n := by
  cases h : m.shader.m_params.find k with
  | some v => rw [Shader.getParamIndex_cached h]
  | none =>
    rw [Shader.getParamIndex_fresh h]
    by_cases hkn : k = n
    · subst hkn
      simp [Shader.resolve, ParamMap.find, h]
    · simp [Shader.resolve, ParamMap.find, hkn]

theorem Shader.resolutionTrace_counts_other (gl : Driver) (shader : Shader) {k n : String}
    (hkn : k ≠ n) :
    lookups n (Shader.resolutionTrace gl shader k : List (Effect F)) = 0
      ∧ notFounds n (Shader.resolutionTrace gl shader k : List (Effect F)) = 0 := by
  have hne : ¬ notFoundLine k = notFoundLine n := fun h => hkn (notFoundLine_injective h)
  unfold Shader.resolutionTrace
  cases h : shader.m_params.find k with
  | some v => simp [lookups, notFounds]
  | none =>
    by_cases hl : gl.glGetUniformLocation shader.m_program k = -1
    · simp [lookups, notFounds, List.countP_cons, Effect.isLookup, Effect.isNotFound, hl, hkn,
        hne]
    · simp [lookups, notFounds, List.countP_cons, Effect.isLookup, Effect.isNotFound, hl, hkn]

theorem Shader.setParameter_zero (gl : Driver) (m : Machine F) (k : String) (x : Value F)
    (hp : m.shader.m_program = 0) : Shader.setParameter gl m k x = m := by
  rw [Shader.setParameter_eq]
  simp [hp]

theorem touchesOnly_setParameter (gl : Driver) (m : Machine F) (k : String) (x : Value F) :
    TouchesOnly gl (fun n => n = k) m (Shader.setParameter gl m k x) := by
  by_cases hp : m.shader.m_program = 0
  · rw [Shader.setParameter_zero gl m k x hp]
    exact touchesOnly_refl gl _ m
  · have htr := Shader.setParameter_trace gl m k x hp
    have hsh := Shader.setParameter_shader gl m k x hp
    refine ⟨Shader.setParameter_program gl m k x, ?_, ?_, ?_, ?_⟩
    · intro n
      rw [hsh]
      exact Shader.getParamIndex_resolve gl m k n
    · intro n hn
      rw [hsh]
      exact Shader.getParamIndex_find_other gl m (fun h => hn h.symm)
    · intro n hn
      have hkn : k ≠ n := fun h => hn h.symm
      have hcounts : lookups n (Shader.resolutionTrace gl m.shader k : List (Effect F)) = 0
          ∧ notFounds n (Shader.resolutionTrace gl m.shader k : List (Effect F)) = 0 :=
        Shader.resolutionTrace_counts_other gl m.shader hkn
      obtain ⟨c1, c2⟩ := hcounts
      unfold lookups at c1
      unfold notFounds at c2
      rw [htr]
      constructor
      · unfold lookups
        simp only [List.countP_append, c1]
        split
        · simp only [List.countP_cons, List.countP_nil, Value.upload_isLookup]
          simp [Effect.isLookup]
        · simp [List.countP_cons, Effect.isLookup]
      · unfold notFounds
        simp only [List.countP_append, c2]
        split
        · simp only [List.countP_cons, List.countP_nil, Value.upload_isNotFound]
          simp [Effect.isNotFound]
        · simp [List.countP_cons, Effect.isNotFound]
    · intro location hloc
      have hk : Shader.resolve gl m.shader k ≠ location := hloc k rfl
      rw [htr, List.append_assoc, List.append_assoc]
      apply lastUploadAt_append_other
      intro e he
      simp only [List.mem_append, List.mem_singleton] at he
      rcases he with rfl | he | he
      · simp [Effect.uploadLocation]
      · simp [Shader.resolutionTrace_no_upload gl m.shader k e he]
      · split at he
        · simp only [List.mem_singleton] at he
          subst he
          rw [Value.upload_uploadLocation]
          exact fun h => hk (Option.some.inj h)
        · simp at he

theorem touchesOnly_applyUploads (gl : Driver) (K : String → Prop)
    (plan : List (String × Value F)) (hK : ∀ kv ∈ plan, K kv.1) :
    ∀ m : Machine F, TouchesOnly gl K m (applyUploads gl m plan) := by
  induction plan with
  | nil => intro m; exact touchesOnly_refl gl K m
  | cons kv plan ih =>
    intro m
    have h1 : TouchesOnly gl K m (Shader.setParameter gl m kv.1 kv.2) :=
      touchesOnly_mono (touchesOnly_setParameter gl m kv.1 kv.2)
        (fun n hn => by subst hn; exact hK kv (List.mem_cons_self _ _))
    exact touchesOnly_trans h1 (ih (fun kv' h => hK kv' (List.mem_cons_of_mem _ h)) _)

theorem Shader.setParameter_uploads (gl : Driver) (m : Machine F) (k : String) (x : Value F)
    (hp : m.shader.m_program ≠ 0) :
    uploads (Shader.setParameter gl m k x).trace
      = uploads m.trace + (if Shader.resolve gl m.shader k ≠ -1 then 1 else 0) := by
  rw [Shader.setParameter_trace gl m k x hp]
  have h0 : List.countP Effect.isUpload
      (Shader.resolutionTrace gl m.shader k : List (Effect F)) = 0 := by
    rw [List.countP_eq_zero]
    intro e he
    simp [Effect.isUpload, Shader.resolutionTrace_no_upload gl m.shader k e he]
  unfold uploads
  simp only [List.countP_append, h0]
  split
  · simp only [List.countP_cons, List.countP_nil, Effect.isUpload, Value.upload_uploadLocation]
    simp [Effect.uploadLocation]
  · simp [List.countP_cons, Effect.isUpload, Effect.uploadLocation]

/-- The number of driver uploads of a plan: one for each step whose name resolves to a
location other than `-1`. -/
theorem applyUploads_uploads (gl : Driver) (plan : List (String × Value F)) :
    ∀ m : Machine F, m.shader.m_program ≠ 0 →
      uploads (applyUploads gl m plan).trace
        = uploads m.trace
          + plan.countP (fun kv => decide (Shader.resolve gl m.shader kv.1 ≠ -1)) := by
  induction plan with
  | nil => intro m _; rfl
  | cons kv plan ih =>
    intro m hp
    have hp1 : (Shader.setParameter gl m kv.1 kv.2).shader.m_program ≠ 0 := by
      rw [Shader.setParameter_program]; exact hp
    have hres : ∀ n, Shader.resolve gl (Shader.setParameter gl m kv.1 kv.2).shader n
        = Shader.resolve gl m.shader n := (touchesOnly_setParameter gl m kv.1 kv.2).resolve
    show uploads (applyUploads gl (Shader.setParameter gl m kv.1 kv.2) plan).trace = _
    rw [ih _ hp1, Shader.setParameter_uploads gl m kv.1 kv.2 hp]
    simp only [hres, List.countP_cons]
    by_cases hl : Shader.resolve gl m.shader kv.1 = -1
    · simp [hl]
    · simp [hl]; omega

end TouchLemmas

/-! ## Lemmas: light uploads -/

section LightLemmas

variable {F : Type} [Add F] [Mul F] [Div F]

theorem Shader.setParameterLight_eq (sqrt : F → F) (gl : Driver) (m : Machine F)
    (name : String) (index : Nat) (light : DirectionalLight F) (hp : m.shader.m_program ≠ 0) :
    Shader.setParameterLight sqrt gl m name index light
      = applyUploads gl (m.emit (Effect.glUseProgram m.shader.m_program))
          (lightPlan sqrt name index light) := by
  simp only [Shader.setParameterLight, hp, ne_eq, not_false_eq_true, if_true]
  rfl

theorem lightPlan_keys (sqrt : F → F) (name : String) (index : Nat)
    (light : DirectionalLight F) :
    ∀ kv ∈ lightPlan sqrt name index light, ∃ f ∈ lightFields, kv.1 = lightKey name index f := by
  intro kv hkv
  simp only [lightPlan, List.mem_cons, List.mem_singleton, List.not_mem_nil, or_false] at hkv
  rcases hkv with rfl | rfl | rfl | rfl
  · exact ⟨"color", by simp [lightFields], rfl⟩
  · exact ⟨"direction", by simp [lightFields], rfl⟩
  · exact ⟨"ambient_intensity", by simp [lightFields], rfl⟩
  · exact ⟨"diffuse_intensity", by simp [lightFields], rfl⟩

theorem touchesOnly_setParameterLight (sqrt : F → F) (gl : Driver) (m : Machine F)
    (name : String) (index : Nat) (light : DirectionalLight F) :
    TouchesOnly gl (fun n => ∃ f ∈ lightFields, n = lightKey name index f) m
      (Shader.setParameterLight sqrt gl m name index light) := by
  by_cases hp : m.shader.m_program = 0
  · have : Shader.setParameterLight sqrt gl m name index light = m := by
      simp [Shader.setParameterLight, hp]
    rw [this]
    exact touchesOnly_refl gl _ m
  · rw [Shader.setParameterLight_eq sqrt gl m name index light hp]
    exact touchesOnly_trans (touchesOnly_emit_useProgram gl _ m _)
      (touchesOnly_applyUploads gl _ _ (lightPlan_keys sqrt name index light) _)

theorem Shader.setParameterLightsLoop_eq (sqrt : F → F) (gl : Driver) (name : String)
    (lights : List (DirectionalLight F)) : ∀ (i : Nat) (m : Machine F),
    Shader.setParameterLightsLoop sqrt gl name i lights m
      = (lights.enumFrom i).foldl
          (fun m jl => Shader.setParameterLight sqrt gl m name jl.1 jl.2) m := by
  induction lights with
  | nil => intro i m; rfl
  | cons light rest ih =>
    intro i m
    simp only [Shader.setParameterLightsLoop, List.enumFrom_cons, List.foldl_cons]
    exact ih (i + 1) _

theorem touchesOnly_setParameterLightsLoop (sqrt : F → F) (gl : Driver) (name : String)
    (lights : List (DirectionalLight F)) : ∀ (i : Nat) (m : Machine F),
    TouchesOnly gl (IsLightKey name i (i + lights.length)) m
      (Shader.setParameterLightsLoop sqrt gl name i lights m) := by
  induction lights with
  | nil => intro i m; exact touchesOnly_refl gl _ m
  | cons light rest ih =>
    intro i m
    have h1 : TouchesOnly gl (IsLightKey name i (i + (light :: rest).length)) m
        (Shader.setParameterLight sqrt gl m name i light) :=
      touchesOnly_mono (touchesOnly_setParameterLight sqrt gl m name i light)
        (fun n ⟨f, hf, hn⟩ => ⟨i, Nat.le_refl i, by simp, f, hf, hn⟩)
    have h2 : TouchesOnly gl (IsLightKey name i (i + (light :: rest).length))
        (Shader.setParameterLight sqrt gl m name i light)
        (Shader.setParameterLightsLoop sqrt gl name (i + 1) rest
          (Shader.setParameterLight sqrt gl m name i light)) :=
      touchesOnly_mono (ih (i + 1) (Shader.setParameterLight sqrt gl m name i light))
        (fun n ⟨j, hj1, hj2, hf⟩ =>
          ⟨j, by omega, by simp only [List.length_cons]; omega, hf⟩)
    exact touchesOnly_trans h1 h2

theorem not_isLightKey_of_le (name : String) (bound i : Nat) (field : String)
    (hi : bound ≤ i) : ¬ IsLightKey name 0 bound (lightKey name i field) := by
  rintro ⟨j, _, hj, f, _, h⟩
  have := lightKey_index_injective h
  omega

end LightLemmas

/-- C7: on a shader with a non-zero program handle, the sequence form with `k ≤ MaxLight`
lights passes its size assertion and uploads element `j` to array index `j` for
`j = 0, …, k - 1` in ascending order.  Only keys `name[j].field` with `j < k` are queried or
uploaded: for every `i ≥ k` and every field the cache entry, the lookups and the diagnostics of
`name[i].field` are as before, and every location that no key with `j < k` resolves to keeps the
value last uploaded to it.  For `k = 0` only the program is made current.  With two lights of
colours `(1,0,0,1)` and `(0,1,0,1)` the program observes these colours at indices `0` and `1`
and the colour of the previous frame at index `2`. -/
theorem Shader.setParameterLights_in_order {F : Type} [Add F] [Mul F] [Div F] (maxLight : Nat)
    (sqrt : F → F) (gl : Driver) (m : Machine F) (name : String)
    (lights : List (DirectionalLight F)) (hp : m.shader.m_program ≠ 0)
    (hk : lights.length ≤ maxLight) :
    Shader.setParameterLights maxLight sqrt gl m name lights
        = some (uploadLightsInOrder sqrt gl name lights
            (m.emit (Effect.glUseProgram m.shader.m_program)))
      ∧ TouchesOnly gl (IsLightKey name 0 lights.length) m
          (uploadLightsInOrder sqrt gl name lights
            (m.emit (Effect.glUseProgram m.shader.m_program)))
      ∧ (∀ i field, lights.length ≤ i →
          (uploadLightsInOrder sqrt gl name lights
              (m.emit (Effect.glUseProgram m.shader.m_program))).shader.m_params.find
              (lightKey name i field)
            = m.shader.m_params.find (lightKey name i field)
          ∧ lookups (lightKey name i field)
              (uploadLightsInOrder sqrt gl name lights
                (m.emit (Effect.glUseProgram m.shader.m_program))).trace
            = lookups (lightKey name i field) m.trace
          ∧ notFounds (lightKey name i field)
              (uploadLightsInOrder sqrt gl name lights
                (m.emit (Effect.glUseProgram m.shader.m_program))).trace
            = notFounds (lightKey name i field) m.trace)
      ∧ (∀ location,
          (∀ j, j < lights.length → ∀ f ∈ lightFields,
            Shader.resolve gl m.shader (lightKey name j f) ≠ location) →
          lastUploadAt location
              (uploadLightsInOrder sqrt gl name lights
                (m.emit (Effect.glUseProgram m.shader.m_program))).trace
            = lastUploadAt location m.trace)
      ∧ Shader.setParameterLights maxLight sqrt gl m name []
        = some (m.emit (Effect.glUseProgram m.shader.m_program))
      ∧ (Shader.setParameterLights 4 Rat.sqrt lightsDriver shaderAfterFrame "directional_lights"
            [lightOfColor ⟨1, 0, 0, 1⟩, lightOfColor ⟨0, 1, 0, 1⟩]).map
          (fun m' => (lastUploadAt 0 m'.trace, lastUploadAt 4 m'.trace,
            lastUploadAt 8 m'.trace))
        = some (some (Effect.glUniform4f 0 1 0 0 1), some (Effect.glUniform4f 4 0 1 0 1),
            some (Effect.glUniform4f 8 0 0 1 1)) := by
  have hloop : uploadLightsInOrder sqrt gl name lights
      (m.emit (Effect.glUseProgram m.shader.m_program))
      = Shader.setParameterLightsLoop sqrt gl name 0 lights
          (m.emit (Effect.glUseProgram m.shader.m_program)) := by
    rw [Shader.setParameterLightsLoop_eq]
    rfl
  have htouch : TouchesOnly gl (IsLightKey name 0 lights.length) m
      (uploadLightsInOrder sqrt gl name lights
        (m.emit (Effect.glUseProgram m.shader.m_program))) := by
    rw [hloop]
    have h := touchesOnly_setParameterLightsLoop sqrt gl name lights 0
      (m.emit (Effect.glUseProgram m.shader.m_program))
    rw [Nat.zero_add] at h
    exact touchesOnly_trans (touchesOnly_emit_useProgram gl _ m _) h
  refine ⟨?_, htouch, ?_, ?_, ?_, ?_⟩
  · rw [hloop]
    simp [Shader.setParameterLights, hp, hk]
  · intro i field hi
    have hnot := not_isLightKey_of_le name lights.length i field hi
    exact ⟨htouch.cache _ hnot, htouch.silent _ hnot⟩
  · intro location hloc
    exact htouch.last location (fun n ⟨j, _, hj, f, hf, hn⟩ => by rw [hn]; exact hloc j hj f hf)
  · simp [Shader.setParameterLights, hp, Shader.setParameterLightsLoop]
  · rfl

/-- Witness for C7: two lights, `MaxLight = 4`, on a linked shader. -/
theorem Shader.setParameterLights_in_order_witness :
    shaderAfterFrame.shader.m_program ≠ 0
      ∧ [lightOfColor ⟨1, 0, 0, 1⟩, lightOfColor ⟨0, 1, 0, 1⟩].length ≤ 4
      ∧ Shader.setParameterLights 4 Rat.sqrt lightsDriver shaderAfterFrame "directional_lights"
          [lightOfColor ⟨1, 0, 0, 1⟩, lightOfColor ⟨0, 1, 0, 1⟩]
        = some (uploadLightsInOrder Rat.sqrt lightsDriver "directional_lights"
            [lightOfColor ⟨1, 0, 0, 1⟩, lightOfColor ⟨0, 1, 0, 1⟩]
            (shaderAfterFrame.emit (Effect.glUseProgram shaderAfterFrame.shader.m_program))) :=
  ⟨by decide, by decide,
    (Shader.setParameterLights_in_order 4 Rat.sqrt lightsDriver shaderAfterFrame
      "directional_lights" [lightOfColor ⟨1, 0, 0, 1⟩, lightOfColor ⟨0, 1, 0, 1⟩]
      (by decide) (by decide)).1⟩


/-! ## Lemmas: the render loop -/

section LoopLemmas

variable {F : Type} [LinearOrderedField F]

/-- The drain loop runs its body `n` times when `n * Δ < dt ≤ (n + 1) * Δ` (or `dt ≤ Δ`,
`n = 0`). -/
theorem drain_steps (delta : F) (hdelta : 0 < delta) : ∀ (n fuel : Nat) (dt : F),
    dt ≤ (n + 1) * delta → (n = 0 ∨ n * delta < dt) → n < fuel →
    drain delta fuel dt = some (dt - n * delta) := by
  intro n
  induction n with
  | zero =>
    intro fuel dt hle _ hfuel
    obtain ⟨fuel, rfl⟩ : ∃ k, fuel = k + 1 := ⟨fuel - 1, by omega⟩
    have hnot : ¬ dt > delta := by
      simp only [Nat.cast_zero, zero_add, one_mul] at hle
      exact not_lt.mpr hle
    simp [drain, hnot]
  | succ n ih =>
    intro fuel dt hle hlow hfuel
    obtain ⟨fuel, rfl⟩ : ∃ k, fuel = k + 1 := ⟨fuel - 1, by omega⟩
    have hlow' : ((n : F) + 1) * delta < dt := by
      rcases hlow with h | h
      · omega
      · simpa using h
    have hn0 : (0 : F) ≤ n := Nat.cast_nonneg n
    have hgt : dt > delta := by nlinarith
    have hle' : dt - delta ≤ ((n : F) + 1) * delta := by
      push_cast at hle
      linarith
    have hlow'' : n = 0 ∨ (n : F) * delta < dt - delta := Or.inr (by linarith)
    have := ih fuel (dt - delta) hle' hlow'' (by omega)
    simp only [drain, hgt, if_true, this]
    congr 1
    push_cast
    ring

/-- How often the body of the drain loop runs from `dt ≥ Δ`. -/
theorem drain_count [FloorSemiring F] (delta dt : F) (hdelta : 0 < delta) (hdt : delta ≤ dt) :
    ∃ n : Nat, dt ≤ (n + 1) * delta ∧ (n = 0 ∨ n * delta < dt) := by
  have hx : 1 ≤ dt / delta := by
    rw [le_div_iff₀ hdelta]
    linarith
  have hc : 1 ≤ ⌈dt / delta⌉₊ := by
    exact_mod_cast (hx.trans (Nat.le_ceil _))
  refine ⟨⌈dt / delta⌉₊ - 1, ?_, ?_⟩
  · have h1 : dt / delta ≤ ⌈dt / delta⌉₊ := Nat.le_ceil _
    have h2 : ((⌈dt / delta⌉₊ - 1 : Nat) : F) + 1 = (⌈dt / delta⌉₊ : F) := by
      have : ⌈dt / delta⌉₊ - 1 + 1 = ⌈dt / delta⌉₊ := by omega
      exact_mod_cast this
    rw [h2]
    calc dt = dt / delta * delta := by field_simp
      _ ≤ ⌈dt / delta⌉₊ * delta := by
        exact mul_le_mul_of_nonneg_right h1 hdelta.le
  · right
    have hlt : ((⌈dt / delta⌉₊ - 1 : Nat) : F) < dt / delta := by
      have h3 : (⌈dt / delta⌉₊ : F) < dt / delta + 1 :=
        Nat.ceil_lt_add_one (by linarith)
      have h2 : ((⌈dt / delta⌉₊ - 1 : Nat) : F) + 1 = (⌈dt / delta⌉₊ : F) := by
        have : ⌈dt / delta⌉₊ - 1 + 1 = ⌈dt / delta⌉₊ := by omega
        exact_mod_cast this
      linarith
    calc ((⌈dt / delta⌉₊ - 1 : Nat) : F) * delta < dt / delta * delta := by
          exact mul_lt_mul_of_pos_right hlt hdelta
      _ = dt := by field_simp

theorem iteration_skip (cos : F → F) (limit : F) (fuel : Nat) (s : LoopState F)
    (input : Sample F) (h : accumulated s input < limit) :
    iteration cos limit fuel s input = some (skipped s input) := by
  unfold accumulated at h
  simp [iteration, skipped, accumulated, h]

theorem iteration_run (cos : F → F) (limit : F) (fuel : Nat) (s : LoopState F)
    (input : Sample F) (h : ¬ accumulated s input < limit) :
    iteration cos limit fuel s input
      = (drain limit fuel (accumulated s input)).map (fun dt =>
          { lastTime := input.currentTime, dt := dt, timer := s.timer + accumulated s input,
            calls := s.calls ++ updateCalls cos s input ++ drawCalls }) := by
  unfold accumulated at h
  cases hd : drain limit fuel (s.dt + (input.currentTime - s.lastTime)) with
  | none =>
    cases he : input.escapePressed <;>
      simp [iteration, accumulated, h, hd, he, LoopState.call]
  | some dt =>
    cases he : input.escapePressed <;>
      simp [iteration, accumulated, h, hd, he, LoopState.call, updateCalls, drawCalls,
        drawUploads]

theorem updateCalls_no_light_upload (cos : F → F) (s : LoopState F) (input : Sample F) :
    ∀ c ∈ updateCalls cos s input ++ drawCalls, c.isLightArrayUpload = false := by
  intro c hc
  cases he : input.escapePressed <;>
    simp [updateCalls, drawCalls, drawUploads, he] at hc <;>
    (casesm* _ ∨ _) <;> subst_vars <;> rfl

theorem runLoop_cons (cos : F → F) (limit : F) (fuel : Nat) (s : LoopState F)
    (input : Sample F) (rest : List (Sample F)) :
    runLoop cos limit fuel s (input :: rest)
      = (iteration cos limit fuel s input).bind (fun s' => runLoop cos limit fuel s' rest) := by
  cases h : iteration cos limit fuel s input <;> simp [runLoop, h]

theorem filter_isCameraUpdate (cos : F → F) (s : LoopState F) (input : Sample F) :
    (updateCalls cos s input ++ drawCalls).filter LoopCall.isCameraUpdate
      = [LoopCall.cameraUpdate (accumulated s input)] := by
  cases he : input.escapePressed <;>
    simp [updateCalls, drawCalls, drawUploads, he, LoopCall.isCameraUpdate]

/-- With enough fuel an iteration returns, and what it returns does not depend on the fuel. -/
theorem iteration_total [FloorSemiring F] (cos : F → F) (limit : F) (hlimit : 0 < limit)
    (s : LoopState F) (input : Sample F) :
    ∃ (n : Nat) (s' : LoopState F), ∀ fuel, n < fuel →
      iteration cos limit fuel s input = some s' := by
  by_cases h : accumulated s input < limit
  · exact ⟨0, skipped s input, fun fuel _ => iteration_skip cos limit fuel s input h⟩
  · obtain ⟨n, hn1, hn2⟩ := drain_count limit (accumulated s input) hlimit (not_lt.mp h)
    refine ⟨n, { lastTime := input.currentTime, dt := accumulated s input - n * limit,
                 timer := s.timer + accumulated s input,
                 calls := s.calls ++ updateCalls cos s input ++ drawCalls },
      fun fuel hfuel => ?_⟩
    rw [iteration_run cos limit fuel s input h,
      drain_steps limit hlimit n fuel (accumulated s input) hn1 hn2 hfuel]
    rfl

/-- With enough fuel the loop gets through any sequence of samples. -/
theorem runLoop_total [FloorSemiring F] (cos : F → F) (limit : F) (hlimit : 0 < limit)
    (inputs : List (Sample F)) : ∀ s : LoopState F,
    ∃ (n : Nat) (s' : LoopState F), ∀ fuel, n < fuel →
      runLoop cos limit fuel s inputs = some s' := by
  induction inputs with
  | nil => intro s; exact ⟨0, s, fun _ _ => rfl⟩
  | cons input rest ih =>
    intro s
    obtain ⟨n1, s1, h1⟩ := iteration_total cos limit hlimit s input
    obtain ⟨n2, s2, h2⟩ := ih s1
    refine ⟨max n1 n2, s2, fun fuel hfuel => ?_⟩
    rw [runLoop_cons, h1 fuel (lt_of_le_of_lt (le_max_left _ _) hfuel), Option.some_bind]
    exact h2 fuel (lt_of_le_of_lt (le_max_right _ _) hfuel)

/-- The first two iterations of the scenario `0, 1/600, 1/300` are skipped. -/
theorem runLoop_two_skipped (cos : F → F) (rest : List (Sample F)) :
    runLoop cos frameLimit 1 (LoopState.initial F) (⟨0, false⟩ :: ⟨1 / 600, false⟩ :: rest)
      = runLoop cos frameLimit 1 { lastTime := 1 / 600, dt := 1 / 600, timer := 0, calls := [] }
          rest := by
  have hlimit : (0 : F) < frameLimit := by unfold frameLimit; norm_num
  have e1 : skipped (LoopState.initial F) ⟨0, false⟩ = LoopState.initial F := by
    simp [skipped, accumulated, LoopState.initial]
  have a1 : accumulated (LoopState.initial F) ⟨0, false⟩ < frameLimit := by
    simpa [accumulated, LoopState.initial] using hlimit
  have e2 : skipped (LoopState.initial F) ⟨1 / 600, false⟩
      = { lastTime := 1 / 600, dt := 1 / 600, timer := 0, calls := [] } := by
    simp [skipped, accumulated, LoopState.initial]
  have a2 : accumulated (LoopState.initial F) ⟨1 / 600, false⟩ < frameLimit := by
    simp only [accumulated, LoopState.initial, frameLimit]
    norm_num
  rw [runLoop_cons, iteration_skip cos _ 1 _ _ a1, e1, Option.some_bind, runLoop_cons,
    iteration_skip cos _ 1 _ _ a2, e2, Option.some_bind]

end LoopLemmas

theorem not_uploadsLights_of_forall {F : Type} {calls : List (LoopCall F)}
    (h : ∀ c ∈ calls, c.isLightArrayUpload = false) :
    ¬ UploadsLightsBetweenClearAndDraw calls := by
  rintro ⟨pre, mid, post, hcalls, c, hc, hl⟩
  have hmem : c ∈ calls := by
    rw [hcalls]
    simp only [List.mem_append, List.mem_cons]
    exact Or.inl (Or.inr (Or.inr hc))
  rw [h c hmem] at hl
  cases hl

/-! ## Theorems: the render loop -/

section RoundingLemmas

theorem roundHalfEven_sub_le (x : ℚ) : |(roundHalfEven x : ℚ) - x| ≤ 1 / 2 := by
  have h1 := Int.floor_le x
  have h2 := Int.lt_floor_add_one x
  unfold roundHalfEven
  split_ifs with a b c
  · rw [abs_le]; constructor <;> linarith
  · rw [abs_le]; push_cast; constructor <;> linarith
  · rw [abs_le]; constructor <;> linarith
  · rw [abs_le]; push_cast; constructor <;> linarith

theorem roundHalfEven_eq (x : ℚ) (n : ℤ) (h : |x - n| < 1 / 2) : roundHalfEven x = n := by
  have hle := roundHalfEven_sub_le x
  rw [abs_lt] at h
  rw [abs_le] at hle
  have h1 : ((roundHalfEven x : ℤ) : ℚ) < (n : ℚ) + 1 := by linarith
  have h2 : (n : ℚ) < ((roundHalfEven x : ℤ) : ℚ) + 1 := by linarith
  have h1' : roundHalfEven x < n + 1 := by exact_mod_cast h1
  have h2' : n < roundHalfEven x + 1 := by exact_mod_cast h2
  omega

theorem roundHalfEven_nonneg (x : ℚ) (hx : 0 ≤ x) : 0 ≤ roundHalfEven x := by
  have h0 : 0 ≤ ⌊x⌋ := Int.floor_nonneg.mpr hx
  unfold roundHalfEven
  split_ifs <;> omega

theorem roundHalfEven_nonpos (x : ℚ) (hx : x ≤ 0) : roundHalfEven x ≤ 0 := by
  by_contra h
  have h1 : 1 ≤ roundHalfEven x := by omega
  have h1' : (1 : ℚ) ≤ (roundHalfEven x : ℚ) := by exact_mod_cast h1
  have hle := roundHalfEven_sub_le x
  rw [abs_le] at hle
  -- the value is at most x + 1/2 ≤ 1/2
  linarith

theorem roundHalfEven_pos (x : ℚ) (hx : 1 ≤ x) : 1 ≤ roundHalfEven x := by
  have h0 : 1 ≤ ⌊x⌋ := Int.le_floor.mpr (by exact_mod_cast hx)
  unfold roundHalfEven
  split_ifs <;> omega

theorem ulpExponent_ge (q : ℚ) : -149 ≤ ulpExponent q := by
  unfold ulpExponent
  have := le_max_right (Int.log 2 |q|) (-126)
  split_ifs <;> omega

theorem ulpExponent_le (q : ℚ) (hq : |q| < 2 ^ 128) : ulpExponent q ≤ 104 := by
  unfold ulpExponent
  rcases eq_or_ne q 0 with rfl | h0
  · simp
  · rw [if_neg h0]
    have hpos : 0 < |q| := abs_pos.mpr h0
    have hlog : Int.log 2 |q| < 128 := by
      rw [← Int.lt_zpow_iff_log_lt (by norm_num) hpos]
      exact_mod_cast hq
    have : max (Int.log 2 |q|) (-126) ≤ 127 := max_le (by omega) (by norm_num)
    omega

/-- Half a unit in the last place is at most `2^-24 |q|`, or `2^-150` in the subnormal range. -/
theorem half_ulp_le (q : ℚ) :
    (2 : ℚ) ^ (ulpExponent q - 1) ≤ max (2 ^ (-24 : ℤ) * |q|) (2 ^ (-150 : ℤ)) := by
  unfold ulpExponent
  rcases eq_or_ne q 0 with rfl | h0
  · simp
  rw [if_neg h0]
  by_cases hL : Int.log 2 |q| ≤ -126
  · rw [max_eq_right hL]
    exact le_max_of_le_right (by norm_num)
  · push_neg at hL
    rw [max_eq_left hL.le]
    have hpos : 0 < |q| := abs_pos.mpr h0
    have hle : (2 : ℚ) ^ (Int.log 2 |q|) ≤ |q| := by
      have := Int.zpow_log_le_self (R := ℚ) (b := 2) (by norm_num) hpos
      exact_mod_cast this
    apply le_max_of_le_left
    have : (2 : ℚ) ^ (Int.log 2 |q| - 23 - 1) = 2 ^ (-24 : ℤ) * 2 ^ (Int.log 2 |q|) := by
      rw [← zpow_add₀ (by norm_num : (2 : ℚ) ≠ 0)]
      congr 1
      ring
    rw [this]
    exact mul_le_mul_of_nonneg_left hle (by positivity)



theorem round_spec (q : ℚ) (hq : |q| ≤ maxFinite) :
    ∃ f : ℚ, Binary32.round q = .finite f
      ∧ |f - q| ≤ max (2 ^ (-24 : ℤ) * |q|) (2 ^ (-150 : ℤ))
      ∧ (0 ≤ q → 0 ≤ f) ∧ (2 ^ (-149 : ℤ) ≤ q → 0 < f) ∧ OnGrid f := by
  set E := ulpExponent q with hE
  set n := roundHalfEven (q / 2 ^ E) with hn
  have hEpos : (0 : ℚ) < 2 ^ E := by positivity
  have hEge := ulpExponent_ge q
  unfold maxFinite at hq
  have hEle : E ≤ 104 := ulpExponent_le q (lt_of_le_of_lt hq (by norm_num))
  have herr : |(n : ℚ) * 2 ^ E - q| ≤ 2 ^ (E - 1) := by
    have h1 := roundHalfEven_sub_le (q / 2 ^ E)
    have h2 : (n : ℚ) * 2 ^ E - q = ((n : ℚ) - q / 2 ^ E) * 2 ^ E := by
      field_simp
    rw [h2, abs_mul, abs_of_pos hEpos]
    have h3 : (2 : ℚ) ^ (E - 1) = 1 / 2 * 2 ^ E := by
      rw [zpow_sub₀ (by norm_num : (2 : ℚ) ≠ 0)]
      simp
      ring
    rw [h3]
    exact mul_le_mul_of_nonneg_right h1 hEpos.le
  have hhalf : (2 : ℚ) ^ (E - 1) ≤ 2 ^ (103 : ℤ) :=
    zpow_le_zpow_right₀ (by norm_num) (by omega)
  have hfin : ¬ (2 : ℚ) ^ 128 ≤ |(n : ℚ) * 2 ^ E| := by
    rw [not_le]
    have h4 : |(n : ℚ) * 2 ^ E| ≤ |q| + 2 ^ (E - 1) := by
      have := abs_sub_abs_le_abs_sub ((n : ℚ) * 2 ^ E) q
      linarith
    have h5 : (2 : ℚ) ^ (103 : ℤ) = 2 ^ 103 := by norm_cast
    rw [h5] at hhalf
    have : (2 : ℚ) ^ 128 - 2 ^ 104 + 2 ^ 103 < 2 ^ 128 := by norm_num
    linarith
  refine ⟨(n : ℚ) * 2 ^ E, ?_, ?_, ?_, ?_, ?_⟩
  · unfold Binary32.round
    rw [if_neg hfin]
  · exact herr.trans (half_ulp_le q)
  · intro h0
    have : 0 ≤ n := roundHalfEven_nonneg _ (div_nonneg h0 hEpos.le)
    have hn0 : (0 : ℚ) ≤ n := by exact_mod_cast this
    exact mul_nonneg hn0 hEpos.le
  · intro hq1
    have hqpos : 0 < q := lt_of_lt_of_le (zpow_pos (by norm_num) _) hq1
    have hEq : (2 : ℚ) ^ E ≤ q := by
      rw [hE]
      unfold ulpExponent
      rw [if_neg hqpos.ne']
      by_cases hL : Int.log 2 |q| ≤ -126
      · rw [max_eq_right hL]
        exact hq1
      · push_neg at hL
        rw [max_eq_left hL.le]
        have hle : (2 : ℚ) ^ (Int.log 2 |q|) ≤ |q| := by
          have := Int.zpow_log_le_self (R := ℚ) (b := 2) (by norm_num) (abs_pos.mpr hqpos.ne')
          exact_mod_cast this
        have hle' : (2 : ℚ) ^ (Int.log 2 |q|) ≤ q := hle.trans_eq (abs_of_pos hqpos)
        refine le_trans (zpow_le_zpow_right₀ (by norm_num) (by omega)) hle'
    have h1 : 1 ≤ q / 2 ^ E := by rwa [le_div_iff₀ hEpos, one_mul]
    have : 1 ≤ n := roundHalfEven_pos _ h1
    have hn1 : (1 : ℚ) ≤ n := by exact_mod_cast this
    exact mul_pos (by linarith) hEpos
  · refine ⟨n * 2 ^ (E + 149).toNat, ?_⟩
    have key : ((E + 149).toNat : ℤ) + (-149) = E := by
      rw [Int.toNat_of_nonneg (by omega)]
      ring
    have h6 : (2 : ℚ) ^ E = 2 ^ ((E + 149).toNat : ℤ) * 2 ^ (-149 : ℤ) := by
      rw [← zpow_add₀ (by norm_num : (2 : ℚ) ≠ 0), key]
    rw [h6]
    push_cast
    rw [zpow_natCast]
    ring

theorem round_zero : Binary32.round 0 = .finite 0 := by
  simp [Binary32.round, roundHalfEven]


theorem log_eq_of_bounds (q : ℚ) (L : ℤ) (h1 : (2 : ℚ) ^ L ≤ |q|) (h2 : |q| < 2 ^ (L + 1)) :
    Int.log 2 |q| = L := by
  have hpos : 0 < |q| := lt_of_lt_of_le (zpow_pos (by norm_num) _) h1
  have a : L ≤ Int.log 2 |q| := by
    rw [← Int.zpow_le_iff_le_log (by norm_num) hpos]
    exact_mod_cast h1
  have b : Int.log 2 |q| < L + 1 := by
    rw [← Int.lt_zpow_iff_log_lt (by norm_num) hpos]
    exact_mod_cast h2
  omega

/-- Rounding a concrete value: the binade `L`, then the nearest multiple `n` of the unit in the
last place. -/
theorem round_eval (q : ℚ) (L n : ℤ) (h1 : (2 : ℚ) ^ L ≤ |q|) (h2 : |q| < 2 ^ (L + 1))
    (hL : -126 ≤ L) (hn : |q / 2 ^ (L - 23) - n| < 1 / 2) :
    Binary32.round q
      = if 2 ^ 128 ≤ |(n : ℚ) * 2 ^ (L - 23)| then .inf (decide (q < 0))
        else .finite ((n : ℚ) * 2 ^ (L - 23)) := by
  have hpos : 0 < |q| := lt_of_lt_of_le (zpow_pos (by norm_num) _) h1
  have h0 : q ≠ 0 := abs_pos.mp hpos
  have hE : ulpExponent q = L - 23 := by
    unfold ulpExponent
    rw [if_neg h0, log_eq_of_bounds q L h1 h2, max_eq_left hL]
  unfold Binary32.round
  rw [hE, roundHalfEven_eq _ n hn]


theorem sqrtRound_spec (q : ℚ) (hq : 0 < q) :
    0 < sqrtRound q
      ∧ (1 - 1 / 2 ^ 24) ^ 2 * sqrtRound q ^ 2 ≤ q
      ∧ q ≤ (1 + 1 / 2 ^ 24) ^ 2 * sqrtRound q ^ 2 := by
  have hL1 : (2 : ℚ) ^ (Int.log 2 q) ≤ q := by
    have := Int.zpow_log_le_self (R := ℚ) (b := 2) (by norm_num) hq
    exact_mod_cast this
  have hL2 : q < (2 : ℚ) ^ (Int.log 2 q + 1) := by
    have := Int.lt_zpow_succ_log_self (R := ℚ) (b := 2) (by norm_num) q
    exact_mod_cast this
  set L := Int.log 2 q with hLdef
  set e : ℤ := L / 2 - 23 with he
  have h4 : (0 : ℚ) < 4 ^ e := zpow_pos (by norm_num) _
  have h2e : (0 : ℚ) < 2 ^ e := zpow_pos (by norm_num) _
  have h42 : (4 : ℚ) ^ e = 2 ^ (2 * e) := by
    rw [zpow_mul, show ((2 : ℚ) ^ (2 : ℤ)) = 4 by norm_num]
  have hsq : ((2 : ℚ) ^ e) ^ 2 = 4 ^ e := by
    rw [h42, ← zpow_natCast, ← zpow_mul]
    congr 1
    ring
  set t : ℚ := q / 4 ^ e with ht
  have htlo : (2 : ℚ) ^ 46 ≤ t := by
    rw [ht, le_div_iff₀ h4, h42]
    have : (2 : ℚ) ^ 46 * 2 ^ (2 * e) = 2 ^ ((46 : ℤ) + 2 * e) := by
      rw [zpow_add₀ (by norm_num : (2 : ℚ) ≠ 0)]
      norm_cast
    rw [this]
    exact le_trans (zpow_le_zpow_right₀ (by norm_num) (by omega)) hL1
  have hthi : t < (2 : ℚ) ^ 48 := by
    rw [ht, div_lt_iff₀ h4, h42]
    have : (2 : ℚ) ^ 48 * 2 ^ (2 * e) = 2 ^ ((48 : ℤ) + 2 * e) := by
      rw [zpow_add₀ (by norm_num : (2 : ℚ) ≠ 0)]
      norm_cast
    rw [this]
    exact lt_of_lt_of_le hL2 (zpow_le_zpow_right₀ (by norm_num) (by omega))
  have htpos : 0 ≤ t := le_trans (by norm_num) htlo
  set k : ℕ := Nat.sqrt ⌊t⌋₊ with hk
  have hfl1 : ((⌊t⌋₊ : ℕ) : ℚ) ≤ t := Nat.floor_le htpos
  have hfl2 : t < ((⌊t⌋₊ : ℕ) : ℚ) + 1 := Nat.lt_floor_add_one t
  have hk1 : (k : ℚ) ^ 2 ≤ t := by
    have : k ^ 2 ≤ ⌊t⌋₊ := Nat.sqrt_le' _
    have : ((k ^ 2 : ℕ) : ℚ) ≤ (⌊t⌋₊ : ℚ) := by exact_mod_cast this
    push_cast at this
    linarith
  have hk2 : t < ((k : ℚ) + 1) ^ 2 := by
    have : ⌊t⌋₊ < (k + 1) ^ 2 := Nat.lt_succ_sqrt' _
    have : ⌊t⌋₊ + 1 ≤ (k + 1) ^ 2 := this
    have : (((⌊t⌋₊ + 1 : ℕ)) : ℚ) ≤ (((k + 1) ^ 2 : ℕ) : ℚ) := by exact_mod_cast this
    push_cast at this
    linarith
  have hk23 : (2 : ℚ) ^ 23 ≤ k := by
    have h1 : (2 : ℕ) ^ 46 ≤ ⌊t⌋₊ := by
      apply Nat.le_floor
      exact_mod_cast htlo
    have h2 : Nat.sqrt ((2 ^ 23) ^ 2) ≤ Nat.sqrt ⌊t⌋₊ :=
      Nat.sqrt_le_sqrt (by rw [← pow_mul]; exact h1)
    rw [Nat.sqrt_eq'] at h2
    exact_mod_cast h2
  have hkq : (1 : ℚ) ≤ k := le_trans (by norm_num) hk23
  have e1 : ((k : ℚ) - 1 / 2) ^ 2 = (k : ℚ) ^ 2 - k + 1 / 4 := by ring
  have e2 : ((k : ℚ) + 1 / 2) ^ 2 = (k : ℚ) ^ 2 + k + 1 / 4 := by ring
  have e3 : ((k : ℚ) + 1 - 1 / 2) ^ 2 = (k : ℚ) ^ 2 + k + 1 / 4 := by ring
  have e4 : ((k : ℚ) + 1 + 1 / 2) ^ 2 = ((k : ℚ) + 1) ^ 2 + k + 1 + 1 / 4 := by ring
  have lowK : ((k : ℚ) - 1 / 2) ^ 2 ≤ t := by rw [e1]; linarith
  have highK1 : t ≤ (((k + 1 : ℕ) : ℚ) + 1 / 2) ^ 2 := by
    push_cast
    rw [e4]
    linarith
  obtain ⟨n, hn, hnlo, hnhi, hnk⟩ : ∃ n : ℕ, sqrtRound q = n * 2 ^ e
      ∧ ((n : ℚ) - 1 / 2) ^ 2 ≤ t ∧ t ≤ ((n : ℚ) + 1 / 2) ^ 2 ∧ (k : ℚ) ≤ n := by
    by_cases c1 : t < (k : ℚ) ^ 2 + k + 1 / 4
    · refine ⟨k, ?_, lowK, by rw [e2]; linarith, le_refl _⟩
      simp only [sqrtRound]
      rw [if_pos c1]
    · have c1' : (k : ℚ) ^ 2 + k + 1 / 4 ≤ t := not_lt.mp c1
      have lowK1 : ((((k + 1 : ℕ)) : ℚ) - 1 / 2) ^ 2 ≤ t := by
        push_cast
        rw [e3]
        exact c1'
      by_cases c2 : (k : ℚ) ^ 2 + k + 1 / 4 < t
      · refine ⟨k + 1, ?_, lowK1, highK1, by push_cast; linarith⟩
        simp only [sqrtRound]
        rw [if_neg c1, if_pos c2]
      · by_cases c3 : k % 2 = 0
        · refine ⟨k, ?_, lowK, by rw [e2]; exact not_lt.mp c2, le_refl _⟩
          simp only [sqrtRound]
          rw [if_neg c1, if_neg c2, if_pos c3]
        · refine ⟨k + 1, ?_, lowK1, highK1, by push_cast; linarith⟩
          simp only [sqrtRound]
          rw [if_neg c1, if_neg c2, if_neg c3]
  have hn23 : (2 : ℚ) ^ 23 ≤ n := hk23.trans hnk
  have hnpos : (0 : ℚ) < n := lt_of_lt_of_le (by norm_num) hn23
  have hqt : q = t * 4 ^ e := by
    rw [ht]
    field_simp
  have hA : ((1 : ℚ) - 1 / 2 ^ 24) * n ≤ (n : ℚ) - 1 / 2 := by
    norm_num at hn23 ⊢
    linarith
  have hA0 : (0 : ℚ) ≤ (1 - 1 / 2 ^ 24) * n := by
    apply mul_nonneg (by norm_num) hnpos.le
  have hB : (n : ℚ) + 1 / 2 ≤ (1 + 1 / 2 ^ 24) * n := by
    norm_num at hn23 ⊢
    linarith
  have hB0 : (0 : ℚ) ≤ (n : ℚ) + 1 / 2 := by linarith
  have hlo : ((1 : ℚ) - 1 / 2 ^ 24) ^ 2 * (n : ℚ) ^ 2 ≤ t := by
    have := pow_le_pow_left₀ hA0 hA 2
    rw [mul_pow] at this
    exact this.trans hnlo
  have hhi : t ≤ ((1 : ℚ) + 1 / 2 ^ 24) ^ 2 * (n : ℚ) ^ 2 := by
    have := pow_le_pow_left₀ hB0 hB 2
    rw [mul_pow] at this
    exact hnhi.trans this
  rw [hn]
  refine ⟨mul_pos hnpos h2e, ?_, ?_⟩
  · rw [mul_pow, hsq, hqt, ← mul_assoc]
    exact mul_le_mul_of_nonneg_right hlo h4.le
  · rw [mul_pow, hsq, hqt, ← mul_assoc]
    exact mul_le_mul_of_nonneg_right hhi h4.le



theorem round_spec_sum (q : ℚ) (hq : |q| ≤ maxFinite) :
    ∃ f : ℚ, Binary32.round q = .finite f
      ∧ |f - q| ≤ |q| / 2 ^ 24 + 1 / 2 ^ 150 ∧ (0 ≤ q → 0 ≤ f) := by
  obtain ⟨f, hf, herr, hpos, _, _⟩ := round_spec q hq
  refine ⟨f, hf, herr.trans ?_, hpos⟩
  have h1 : (2 : ℚ) ^ (-24 : ℤ) * |q| = |q| / 2 ^ 24 := by
    rw [zpow_neg]
    norm_cast
    field_simp
  have h2 : (2 : ℚ) ^ (-150 : ℤ) = 1 / 2 ^ 150 := by
    rw [zpow_neg]
    norm_cast
    field_simp
  rw [h1, h2]
  apply max_le
  · have : (0 : ℚ) ≤ 1 / 2 ^ 150 := by positivity
    linarith
  · have : (0 : ℚ) ≤ |q| / 2 ^ 24 := by positivity
    linarith

theorem Binary32.finite_mul (a b : ℚ) :
    Binary32.finite a * Binary32.finite b = Binary32.round (a * b) := rfl

theorem Binary32.finite_add (a b : ℚ) :
    Binary32.finite a + Binary32.finite b = Binary32.round (a + b) := rfl

theorem Binary32.finite_div (a b : ℚ) (hb : b ≠ 0) :
    Binary32.finite a / Binary32.finite b = Binary32.round (a / b) := by
  show Binary32.div _ _ = _
  simp [Binary32.div, hb]

theorem Binary32.sqrt_finite (q : ℚ) (hq : 0 < q) :
    Binary32.sqrt (.finite q) = .finite (sqrtRound q) := by
  simp [Binary32.sqrt, not_lt.mpr hq.le, hq.ne']


end RoundingLemmas

/-! ## Lemmas: the drain loop in binary32 -/

section DrainLemmas

theorem frameLimit32_eq : frameLimit32 = .finite (14316558 * 2 ^ (-32 : ℤ)) := by
  show Binary32.round (1 / 300) = _
  rw [round_eval (1 / 300) (-9) 14316558 (by norm_num [abs_of_pos]) (by norm_num [abs_of_pos])
    (by norm_num) (by norm_num [abs_lt])]
  norm_num [abs_of_pos]

theorem sub_frameLimit32 :
    Binary32.finite 131072 - frameLimit32 = Binary32.finite 131072 := by
  rw [frameLimit32_eq]
  show Binary32.round (131072 - 14316558 * 2 ^ (-32 : ℤ)) = _
  rw [round_eval _ 16 16777216 (by norm_num [abs_of_pos]) (by norm_num [abs_of_pos])
    (by norm_num) (by norm_num [abs_lt])]
  norm_num [abs_of_pos]

theorem drain32_stuck (fuel : Nat) :
    drain frameLimit32 fuel (Binary32.finite 131072) = none := by
  induction fuel with
  | zero => rfl
  | succ fuel ih =>
    have hgt : Binary32.finite 131072 > frameLimit32 := by
      rw [frameLimit32_eq]
      show Binary32.blt _ _ = true
      simp only [Binary32.blt, decide_eq_true_eq]
      norm_num
    simp only [drain, hgt, if_true, sub_frameLimit32, ih]


theorem onGrid_sub {a b : ℚ} (ha : OnGrid a) (hb : OnGrid b) : OnGrid (a - b) := by
  obtain ⟨m, rfl⟩ := ha
  obtain ⟨n, rfl⟩ := hb
  exact ⟨m - n, by push_cast; ring⟩

theorem onGrid_pos_ge {q : ℚ} (hq : OnGrid q) (hpos : 0 < q) : 2 ^ (-149 : ℤ) ≤ q := by
  obtain ⟨n, rfl⟩ := hq
  have hg : (0 : ℚ) < 2 ^ (-149 : ℤ) := zpow_pos (by norm_num) _
  have hn : (0 : ℚ) < n := by
    by_contra h
    push_neg at h
    have := mul_nonpos_of_nonpos_of_nonneg h hg.le
    linarith
  have hn1 : (1 : ℚ) ≤ n := by
    have : (0 : ℤ) < n := by exact_mod_cast hn
    exact_mod_cast this
  calc (2 : ℚ) ^ (-149 : ℤ) = 1 * 2 ^ (-149 : ℤ) := by ring
    _ ≤ n * 2 ^ (-149 : ℤ) := mul_le_mul_of_nonneg_right hn1 hg.le

theorem drain32_stop (delta dt : ℚ) (h : dt ≤ delta) (fuel : Nat) :
    drain (Binary32.finite delta) (fuel + 1) (Binary32.finite dt)
      = some (Binary32.finite dt) := by
  have hnot : ¬ Binary32.finite dt > Binary32.finite delta := by
    show ¬ Binary32.blt _ _ = true
    simp only [Binary32.blt, decide_eq_true_eq, not_lt]
    exact h
  simp only [drain, hnot, if_false]

theorem drain32_step (delta dt : ℚ) (h : delta < dt) (fuel : Nat) :
    drain (Binary32.finite delta) (fuel + 1) (Binary32.finite dt)
      = drain (Binary32.finite delta) fuel (Binary32.round (dt - delta)) := by
  have hgt : Binary32.finite dt > Binary32.finite delta := by
    show Binary32.blt _ _ = true
    simp only [Binary32.blt, decide_eq_true_eq]
    exact h
  simp only [drain, hgt, if_true]
  rfl

/-- In binary32 one pass of the drain loop lowers `dt` by at least `Δ / 2` as long as
`dt ≤ 2^23 Δ`; so the loop ends within `m` passes when `dt ≤ m * (Δ / 2)`. -/
theorem drain32_steps (delta : ℚ) (hdelta : 0 < delta) (hgrid : OnGrid delta) :
    ∀ (m : Nat) (dt : ℚ), OnGrid dt → 0 < dt → dt ≤ m * (delta / 2) → dt ≤ 2 ^ 23 * delta →
      dt ≤ maxFinite →
      ∃ (n : Nat) (dt' : ℚ), n ≤ m
        ∧ (∀ fuel, n < fuel →
            drain (Binary32.finite delta) fuel (Binary32.finite dt) = some (Binary32.finite dt'))
        ∧ 0 < dt' ∧ dt' ≤ delta ∧ dt' ≤ dt := by
  have hdmin : (2 : ℚ) ^ (-149 : ℤ) ≤ delta := onGrid_pos_ge hgrid hdelta
  intro m
  induction m with
  | zero =>
    intro dt _ hpos hle _ _
    simp at hle
    linarith
  | succ m ih =>
    intro dt hdt hpos hle hrange hmax
    by_cases hgt : delta < dt
    · have hq : 0 < dt - delta := by linarith
      have hqgrid : OnGrid (dt - delta) := onGrid_sub hdt hgrid
      have hqmin := onGrid_pos_ge hqgrid hq
      have hqabs : |dt - delta| = dt - delta := abs_of_pos hq
      obtain ⟨f, hf, herr, _, hfpos, hfgrid⟩ := round_spec (dt - delta)
        (by rw [hqabs]; linarith)
      have hfpos' := hfpos hqmin
      have hhalf : max (2 ^ (-24 : ℤ) * |dt - delta|) (2 ^ (-150 : ℤ)) ≤ delta / 2 := by
        apply max_le
        · rw [hqabs]
          have h1 : (2 : ℚ) ^ (-24 : ℤ) * (dt - delta) ≤ 2 ^ (-24 : ℤ) * (2 ^ 23 * delta) :=
            mul_le_mul_of_nonneg_left (by linarith) (by positivity)
          have h2 : (2 : ℚ) ^ (-24 : ℤ) * (2 ^ 23 * delta) = delta / 2 := by
            norm_num
            ring
          linarith
        · have h3 : (2 : ℚ) ^ (-150 : ℤ) = 2 ^ (-149 : ℤ) / 2 := by norm_num
          rw [h3]
          exact (div_le_div_iff_of_pos_right (by norm_num : (0 : ℚ) < 2)).mpr hdmin
      have hfle : f ≤ dt - delta / 2 := by
        have := (abs_le.mp (herr.trans hhalf)).2
        linarith
      obtain ⟨n, dt', hn, hrun, hpos', hle', hdec⟩ := ih f hfgrid hfpos'
        (by push_cast at hle; linarith) (by linarith) (by linarith)
      refine ⟨n + 1, dt', by omega, ?_, hpos', hle', by linarith⟩
      intro fuel hfuel
      obtain ⟨k, rfl⟩ : ∃ k, fuel = k + 1 := ⟨fuel - 1, by omega⟩
      rw [drain32_step delta dt hgt k, hf]
      exact hrun k (by omega)
    · push_neg at hgt
      refine ⟨0, dt, Nat.zero_le _, ?_, hpos, hgt, le_refl _⟩
      intro fuel hfuel
      obtain ⟨k, rfl⟩ : ∃ k, fuel = k + 1 := ⟨fuel - 1, by omega⟩
      exact drain32_stop delta dt hgt k



end DrainLemmas

/-! ## Lemmas: length and normalize in binary32 -/

section NormalizeLemmas

set_option maxHeartbeats 1000000

/-- The rounded sum of squares is within a factor `1 ± 2^-22` of the exact one. -/
theorem sumsq32 (x y z : ℚ) (hlo : 1 / 2 ^ 120 ≤ x * x + y * y + z * z)
    (hhi : x * x + y * y + z * z ≤ 2 ^ 122) :
    ∃ s : ℚ, Binary32.finite x * Binary32.finite x + Binary32.finite y * Binary32.finite y
          + Binary32.finite z * Binary32.finite z = Binary32.finite s
      ∧ (1 - 1 / 2 ^ 22) * (x * x + y * y + z * z) ≤ s
      ∧ s ≤ (1 + 1 / 2 ^ 22) * (x * x + y * y + z * z) := by
  have hX : 0 ≤ x * x := mul_self_nonneg x
  have hY : 0 ≤ y * y := mul_self_nonneg y
  have hZ : 0 ≤ z * z := mul_self_nonneg z
  have hmax : maxFinite = 2 ^ 128 - 2 ^ 104 := rfl
  obtain ⟨a, ha, hae, ha0⟩ := round_spec_sum (x * x)
    (by rw [abs_of_nonneg hX, hmax]; norm_num at hhi ⊢; linarith)
  obtain ⟨b, hb, hbe, hb0⟩ := round_spec_sum (y * y)
    (by rw [abs_of_nonneg hY, hmax]; norm_num at hhi ⊢; linarith)
  obtain ⟨c, hc, hce, hc0⟩ := round_spec_sum (z * z)
    (by rw [abs_of_nonneg hZ, hmax]; norm_num at hhi ⊢; linarith)
  rw [abs_of_nonneg hX] at hae
  rw [abs_of_nonneg hY] at hbe
  rw [abs_of_nonneg hZ] at hce
  have ha0 := ha0 hX
  have hb0 := hb0 hY
  have hc0 := hc0 hZ
  rw [abs_le] at hae hbe hce
  have hab0 : 0 ≤ a + b := by linarith
  obtain ⟨t, ht, hte, ht0⟩ := round_spec_sum (a + b)
    (by rw [abs_of_nonneg hab0, hmax]; norm_num at hhi hae hbe ⊢; linarith)
  rw [abs_of_nonneg hab0] at hte
  have ht0 := ht0 hab0
  rw [abs_le] at hte
  have htc0 : 0 ≤ t + c := by linarith
  obtain ⟨s, hs, hse, _⟩ := round_spec_sum (t + c)
    (by rw [abs_of_nonneg htc0, hmax]; norm_num at hhi hae hbe hce hte ⊢; linarith)
  rw [abs_of_nonneg htc0] at hse
  rw [abs_le] at hse
  refine ⟨s, ?_, ?_, ?_⟩
  · rw [Binary32.finite_mul, Binary32.finite_mul, Binary32.finite_mul, ha, hb, hc,
      Binary32.finite_add, ht, Binary32.finite_add, hs]
  · norm_num at hlo hae hbe hce hte hse ⊢
    linarith
  · norm_num at hlo hae hbe hce hte hse ⊢
    linarith


/-- The rounded length: its square is within a factor `1 ± 2^-20` of the exact sum of squares. -/
theorem length32 (x y z : ℚ) (hlo : 1 / 2 ^ 120 ≤ x * x + y * y + z * z)
    (hhi : x * x + y * y + z * z ≤ 2 ^ 122) :
    ∃ l : ℚ, Binary32.sqrt (Binary32.finite x * Binary32.finite x
          + Binary32.finite y * Binary32.finite y + Binary32.finite z * Binary32.finite z)
        = Binary32.finite l
      ∧ 0 < l
      ∧ (1 - 1 / 2 ^ 20) * (x * x + y * y + z * z) ≤ l ^ 2
      ∧ l ^ 2 ≤ (1 + 1 / 2 ^ 20) * (x * x + y * y + z * z) := by
  obtain ⟨s, hs, hs1, hs2⟩ := sumsq32 x y z hlo hhi
  have hspos : 0 < s := by
    have : (0 : ℚ) < 1 / 2 ^ 120 := by positivity
    norm_num at hs1 hlo this ⊢
    linarith
  obtain ⟨hl0, hl1, hl2⟩ := sqrtRound_spec s hspos
  refine ⟨sqrtRound s, by rw [hs, Binary32.sqrt_finite s hspos], hl0, ?_, ?_⟩
  · norm_num at hs1 hs2 hl1 hl2 hlo ⊢
    linarith
  · norm_num at hs1 hs2 hl1 hl2 hlo ⊢
    linarith

/-- Squaring a value known up to one rounding. -/
theorem sq_near (a x' : ℚ) (ha : |a| ≤ 2) (h : |x' - a| ≤ |a| / 2 ^ 24 + 1 / 2 ^ 150) :
    (1 - 1 / 2 ^ 22) * (a * a) - 1 / 2 ^ 147 ≤ x' * x'
      ∧ x' * x' ≤ (1 + 1 / 2 ^ 22) * (a * a) + 1 / 2 ^ 147 := by
  set w := |a| with hw
  have hw0 : 0 ≤ w := abs_nonneg a
  have hww : w * w = a * a := abs_mul_abs_self a
  set d := x' - a with hd
  set r := w / 2 ^ 24 + 1 / 2 ^ 150 with hr
  have hr0 : 0 ≤ r := by positivity
  have had : |a * d| ≤ w * r := by
    rw [abs_mul]
    exact mul_le_mul le_rfl h (abs_nonneg _) hw0
  have hdd : d * d ≤ r * r := by
    rw [← abs_mul_abs_self d]
    exact mul_le_mul h h (abs_nonneg _) hr0
  have hdd0 : 0 ≤ d * d := mul_self_nonneg d
  have hexp : x' * x' = a * a + 2 * (a * d) + d * d := by
    have : x' = a + d := by rw [hd]; ring
    rw [this]
    ring
  have hwr : w * r = w * w / 2 ^ 24 + w * (1 / 2 ^ 150) := by rw [hr]; ring
  have hrr : r * r = w * w / 2 ^ 48 + 2 * (w * (1 / 2 ^ 150)) / 2 ^ 24 + 1 / 2 ^ 300 := by
    rw [hr]; ring
  have hwe : w * (1 / 2 ^ 150) ≤ 2 * (1 / 2 ^ 150) :=
    mul_le_mul_of_nonneg_right ha (by positivity)
  have hwe0 : 0 ≤ w * (1 / 2 ^ 150) := by positivity
  have hww0 : 0 ≤ w * w := mul_self_nonneg w
  obtain ⟨had1, had2⟩ := abs_le.mp had
  rw [hexp, ← hww]
  clear_value w d r
  constructor
  · linarith
  · linarith


/-- One component of `normalize`: the quotient by the length, rounded. -/
theorem div32 (x l : ℚ) (hl : 0 < l) (hxl : x * x ≤ 2 * l ^ 2) :
    |x / l| ≤ 2
      ∧ ∃ x' : ℚ, Binary32.finite x / Binary32.finite l = Binary32.finite x'
        ∧ |x' - x / l| ≤ |x / l| / 2 ^ 24 + 1 / 2 ^ 150 := by
  have h2 : |x / l| ≤ 2 := by
    rw [abs_div, abs_of_pos hl, div_le_iff₀ hl]
    apply abs_le_of_sq_le_sq _ (by positivity)
    have : x ^ 2 = x * x := by ring
    have : (2 * l) ^ 2 = 4 * l ^ 2 := by ring
    have : 0 ≤ l ^ 2 := by positivity
    linarith
  refine ⟨h2, ?_⟩
  obtain ⟨x', hx', herr, _⟩ := round_spec_sum (x / l)
    (h2.trans (by unfold maxFinite; norm_num))
  exact ⟨x', by rw [Binary32.finite_div x l hl.ne', hx'], herr⟩

theorem mul_self_le_of_abs_le {x B : ℚ} (h : |x| ≤ B) : x * x ≤ B * B := by
  rw [← abs_mul_abs_self x]
  exact mul_le_mul h h (abs_nonneg _) ((abs_nonneg _).trans h)

theorem mul_self_ge_of_le_abs {x B : ℚ} (hB : 0 ≤ B) (h : B ≤ |x|) : B * B ≤ x * x := by
  rw [← abs_mul_abs_self x]
  exact mul_le_mul h h hB (abs_nonneg _)

theorem abs_sub_one_le_of_sq (l c : ℚ) (hl : 0 < l) (h1 : 1 - c ≤ l ^ 2)
    (h2 : l ^ 2 ≤ 1 + c) : |l - 1| ≤ c := by
  rw [abs_le]
  rcases le_total 1 l with h | h
  · constructor
    · nlinarith
    · have : (l - 1) * (l + 1) = l ^ 2 - 1 := by ring
      have : l - 1 ≤ (l - 1) * (l + 1) := by
        have h0 : 0 ≤ l - 1 := by linarith
        nlinarith
      linarith
  · constructor
    · have : (1 - l) * (1 + l) = 1 - l ^ 2 := by ring
      have : 1 - l ≤ (1 - l) * (1 + l) := by
        have h0 : 0 ≤ 1 - l := by linarith
        nlinarith
      linarith
    · have : 0 ≤ c := by nlinarith
      linarith

/-- In binary32, `normalize` followed by `length` gives a value within `1e-5` of `1` when the
largest component is between `2^-60` and `2^60` in magnitude. -/
theorem normalize_length32 (x y z : ℚ) (hx : |x| ≤ 2 ^ 60) (hy : |y| ≤ 2 ^ 60)
    (hz : |z| ≤ 2 ^ 60) (hlo : 1 / 2 ^ 60 ≤ max |x| (max |y| |z|)) :
    ∃ l : ℚ, ((⟨.finite x, .finite y, .finite z⟩ : Vector3 Binary32).normalize
          Binary32.sqrt).length Binary32.sqrt = .finite l
      ∧ |l - 1| ≤ 1 / 100000 := by
  have hX := mul_self_le_of_abs_le hx
  have hY := mul_self_le_of_abs_le hy
  have hZ := mul_self_le_of_abs_le hz
  have hX0 : 0 ≤ x * x := mul_self_nonneg x
  have hY0 : 0 ≤ y * y := mul_self_nonneg y
  have hZ0 : 0 ≤ z * z := mul_self_nonneg z
  have hB0 : (0 : ℚ) ≤ 1 / 2 ^ 60 := by positivity
  have hSlo : 1 / 2 ^ 120 ≤ x * x + y * y + z * z := by
    have hBB : (1 : ℚ) / 2 ^ 60 * (1 / 2 ^ 60) = 1 / 2 ^ 120 := by norm_num
    rcases le_max_iff.mp hlo with h | h
    · have := mul_self_ge_of_le_abs hB0 h
      linarith
    · rcases le_max_iff.mp h with h | h
      · have := mul_self_ge_of_le_abs hB0 h
        linarith
      · have := mul_self_ge_of_le_abs hB0 h
        linarith
  have hShi : x * x + y * y + z * z ≤ 2 ^ 122 := by
    norm_num at hX hY hZ ⊢
    linarith
  obtain ⟨l, hl, hl0, hl1, hl2⟩ := length32 x y z hSlo hShi
  have hl2pos : 0 < l ^ 2 := by positivity
  -- the three quotients
  have hxl : x * x ≤ 2 * l ^ 2 := by norm_num at hl1 ⊢; linarith
  have hyl : y * y ≤ 2 * l ^ 2 := by norm_num at hl1 ⊢; linarith
  have hzl : z * z ≤ 2 * l ^ 2 := by norm_num at hl1 ⊢; linarith
  obtain ⟨hax, x', hx', hxe⟩ := div32 x l hl0 hxl
  obtain ⟨hay, y', hy', hye⟩ := div32 y l hl0 hyl
  obtain ⟨haz, z', hz', hze⟩ := div32 z l hl0 hzl
  obtain ⟨hx1, hx2⟩ := sq_near _ _ hax hxe
  obtain ⟨hy1, hy2⟩ := sq_near _ _ hay hye
  obtain ⟨hz1, hz2⟩ := sq_near _ _ haz hze
  -- the exact sum of squares of the quotients
  set R := (x * x + y * y + z * z) / l ^ 2 with hR
  have hsum : x / l * (x / l) + y / l * (y / l) + z / l * (z / l) = R := by
    rw [hR]
    field_simp
    exact Or.inl (by ring)
  have hR1 : (1 - 1 / 2 ^ 20) * R ≤ 1 := by
    rw [hR, ← mul_div_assoc, div_le_one hl2pos]
    exact hl1
  have hR2 : 1 ≤ (1 + 1 / 2 ^ 20) * R := by
    rw [hR, ← mul_div_assoc, one_le_div hl2pos]
    exact hl2
  clear_value R
  have hS'lo : 1 - 1 / 2 ^ 18 ≤ x' * x' + y' * y' + z' * z' := by
    norm_num at hx1 hy1 hz1 hR1 hR2 ⊢
    linarith
  have hS'hi : x' * x' + y' * y' + z' * z' ≤ 1 + 1 / 2 ^ 18 := by
    norm_num at hx2 hy2 hz2 hR1 hR2 ⊢
    linarith
  obtain ⟨l', hl', hl'0, hl'1, hl'2⟩ := length32 x' y' z'
    (le_trans (by norm_num) hS'lo) (le_trans hS'hi (by norm_num))
  refine ⟨l', ?_, ?_⟩
  · simp only [Vector3.normalize, Vector3.length]
    rw [hl, hx', hy', hz']
    exact hl'
  · have h1 : 1 - 1 / 100000 ≤ l' ^ 2 := by
      norm_num at hl'1 hS'lo ⊢
      linarith
    have h2 : l' ^ 2 ≤ 1 + 1 / 100000 := by
      norm_num at hl'2 hS'hi ⊢
      linarith
    exact abs_sub_one_le_of_sq l' (1 / 100000) hl'0 h1 h2


end NormalizeLemmas

/-! ## Theorems: Vector3 and the drain loop in binary32 -/

theorem Binary32.inf_add_finite (s : Bool) (a : ℚ) :
    Binary32.inf s + Binary32.finite a = Binary32.inf s := rfl

theorem Binary32.sqrt_inf : Binary32.sqrt (Binary32.inf false) = Binary32.inf false := rfl

theorem Binary32.finite_div_inf (a : ℚ) (s : Bool) :
    Binary32.finite a / Binary32.inf s = Binary32.finite 0 := rfl

theorem Binary32.sqrt_zero : Binary32.sqrt (Binary32.finite 0) = Binary32.finite 0 := by
  simp [Binary32.sqrt]

/-- The length of the zero vector is `0`. -/
theorem length_zero32 :
    (⟨.finite 0, .finite 0, .finite 0⟩ : Vector3 Binary32).length Binary32.sqrt
      = Binary32.finite 0 := by
  unfold Vector3.length
  simp only []
  rw [Binary32.finite_mul, mul_zero, round_zero, Binary32.finite_add, add_zero, round_zero,
    Binary32.finite_add, add_zero, round_zero, Binary32.sqrt_zero]

/-- When `x * x` overflows, the length of `(x, 0, 0)` is infinite and `normalize` yields the
zero vector. -/
theorem normalize_of_overflow (x : ℚ)
    (hsq : Binary32.finite x * Binary32.finite x = Binary32.inf false) :
    (⟨.finite x, .finite 0, .finite 0⟩ : Vector3 Binary32).normalize Binary32.sqrt
      = ⟨.finite 0, .finite 0, .finite 0⟩ := by
  have h00 : Binary32.finite 0 * Binary32.finite 0 = Binary32.finite 0 := by
    rw [Binary32.finite_mul, mul_zero, round_zero]
  have hlen : (⟨.finite x, .finite 0, .finite 0⟩ : Vector3 Binary32).length Binary32.sqrt
      = Binary32.inf false := by
    unfold Vector3.length
    simp only []
    rw [hsq, h00, Binary32.inf_add_finite, Binary32.inf_add_finite, Binary32.sqrt_inf]
  unfold Vector3.normalize
  simp only []
  rw [hlen, Binary32.finite_div_inf, Binary32.finite_div_inf]

/-- C2, as the code has it: `length()` is `sqrt(x*x + y*y + z*z)` and `normalize()` divides
each component by the length computed before any component is modified.  In the binary32
arithmetic of the code, for every vector whose components are at most `2^60` in magnitude, one
of them at least `2^-60`, the length after `normalize` is within `1e-5` of `1`; over the reals
it is exactly `1`. -/
theorem Vector3.length_normalize_binary32 (x y z : ℚ) (hx : |x| ≤ 2 ^ 60)
    (hy : |y| ≤ 2 ^ 60) (hz : |z| ≤ 2 ^ 60) (hlo : 1 / 2 ^ 60 ≤ max |x| (max |y| |z|)) :
    (∃ l : ℚ, ((⟨.finite x, .finite y, .finite z⟩ : Vector3 Binary32).normalize
            Binary32.sqrt).length Binary32.sqrt = .finite l
        ∧ |l - 1| ≤ 1 / 100000)
      ∧ (⟨.finite x, .finite y, .finite z⟩ : Vector3 Binary32).length Binary32.sqrt
        = Binary32.sqrt (Binary32.finite x * Binary32.finite x
            + Binary32.finite y * Binary32.finite y + Binary32.finite z * Binary32.finite z)
      ∧ (⟨.finite x, .finite y, .finite z⟩ : Vector3 Binary32).normalize Binary32.sqrt
        = ⟨Binary32.finite x
              / (⟨.finite x, .finite y, .finite z⟩ : Vector3 Binary32).length Binary32.sqrt,
            Binary32.finite y
              / (⟨.finite x, .finite y, .finite z⟩ : Vector3 Binary32).length Binary32.sqrt,
            Binary32.finite z
              / (⟨.finite x, .finite y, .finite z⟩ : Vector3 Binary32).length Binary32.sqrt⟩
      ∧ ((⟨(x : ℝ), (y : ℝ), (z : ℝ)⟩ : Vector3 ℝ).normalize Real.sqrt).length Real.sqrt
        = 1 := by
  refine ⟨normalize_length32 x y z hx hy hz hlo, rfl, rfl, ?_⟩
  apply Vector3.length_normalize_real
  intro h
  have h1 : (x : ℝ) = 0 := congrArg Vector3.x h
  have h2 : (y : ℝ) = 0 := congrArg Vector3.y h
  have h3 : (z : ℝ) = 0 := congrArg Vector3.z h
  have hx0 : x = 0 := by exact_mod_cast h1
  have hy0 : y = 0 := by exact_mod_cast h2
  have hz0 : z = 0 := by exact_mod_cast h3
  rw [hx0, hy0, hz0] at hlo
  norm_num at hlo

/-- Witness for C2 (as the code has it) at `v = (3, 4, 0)`. -/
theorem Vector3.length_normalize_binary32_witness :
    |(3 : ℚ)| ≤ 2 ^ 60 ∧ |(4 : ℚ)| ≤ 2 ^ 60 ∧ |(0 : ℚ)| ≤ 2 ^ 60
      ∧ 1 / 2 ^ 60 ≤ max |(3 : ℚ)| (max |(4 : ℚ)| |(0 : ℚ)|)
      ∧ ∃ l : ℚ, ((⟨.finite 3, .finite 4, .finite 0⟩ : Vector3 Binary32).normalize
            Binary32.sqrt).length Binary32.sqrt = .finite l
          ∧ |l - 1| ≤ 1 / 100000 :=
  ⟨by norm_num, by norm_num, by norm_num, by norm_num [le_max_iff],
    (Vector3.length_normalize_binary32 3 4 0 (by norm_num) (by norm_num) (by norm_num)
      (by norm_num [le_max_iff])).1⟩

/-- C2 as stated fails: the vector `(2^70, 0, 0)` is not the zero vector, yet `x * x` overflows,
the length is infinite, `normalize` yields `(0, 0, 0)`, and the length afterwards is `0`. -/
theorem Vector3.length_normalize_overflow :
    (⟨.finite (2 ^ 70), .finite 0, .finite 0⟩ : Vector3 Binary32)
        ≠ ⟨.finite 0, .finite 0, .finite 0⟩
      ∧ (⟨.finite (2 ^ 70), .finite 0, .finite 0⟩ : Vector3 Binary32).normalize Binary32.sqrt
        = ⟨.finite 0, .finite 0, .finite 0⟩
      ∧ ((⟨.finite (2 ^ 70), .finite 0, .finite 0⟩ : Vector3 Binary32).normalize
          Binary32.sqrt).length Binary32.sqrt = .finite 0
      ∧ ¬ ∃ l : ℚ, ((⟨.finite (2 ^ 70), .finite 0, .finite 0⟩ : Vector3 Binary32).normalize
            Binary32.sqrt).length Binary32.sqrt = .finite l
          ∧ |l - 1| ≤ 1 / 100000 := by
  have hsq : Binary32.finite (2 ^ 70) * Binary32.finite (2 ^ 70) = Binary32.inf false := by
    rw [Binary32.finite_mul,
      round_eval (2 ^ 70 * 2 ^ 70) 140 8388608 (by norm_num [abs_of_pos])
        (by norm_num [abs_of_pos]) (by norm_num) (by norm_num [abs_lt])]
    norm_num [abs_of_pos]
  have hnorm := normalize_of_overflow (2 ^ 70) hsq
  have hlen0 : ((⟨.finite (2 ^ 70), .finite 0, .finite 0⟩ : Vector3 Binary32).normalize
      Binary32.sqrt).length Binary32.sqrt = .finite 0 := by
    rw [hnorm]
    exact length_zero32
  refine ⟨?_, hnorm, hlen0, ?_⟩
  · intro h
    have := congrArg Vector3.x h
    simp only [Binary32.finite.injEq] at this
    norm_num at this
  · rintro ⟨l, hl, hl1⟩
    rw [hlen0] at hl
    simp only [Binary32.finite.injEq] at hl
    rw [← hl] at hl1
    norm_num at hl1

end GraphicsEngine
